import Mathlib

/-!
# Verification of the Branching-chat conversation-tree core

Shallow embedding of the conversation-tree data model and algorithms of
`src/lib/tree-utils.ts` and of the application state machine (reducer) of
`src/lib/types.ts` / the store module, together with proofs of the spec's
testable properties.

JavaScript `Record<string, T>` objects and `Map<string, T>` values are
embedded as association lists (`List (String × T)`) with JS object
semantics: lookup returns the value of the first (unique) matching key,
assignment replaces an existing binding in place and otherwise appends the
new binding at the end, exactly as JS property update / insertion order
works.  Loops that walk `parentId` links (which diverge on malformed,
cyclic mappings, as the JS source would) are embedded with an explicit
iteration budget ("fuel"); `none` means the loop has not finished within
the given number of iterations, and divergence of the source is expressed
as "no amount of fuel finishes".
-/

set_option linter.unusedVariables false

namespace BranchingChat

/-- `source` tag of a node (`"imported" | "generated"` in `types.ts`). -/
inductive NodeSource where
  | imported
  | generated
  deriving DecidableEq, Repr

/-- `ChatNode` from `src/lib/types.ts`: a single prompt/response exchange. -/
structure ChatNode where
  id : String
  prompt : String
  response : String
  parentId : Option String
  childIds : List String
  source : NodeSource
  deriving DecidableEq, Repr

/-- JS-object lookup: first binding of the key (keys are unique in a JS object). -/
def lookupA {α : Type} : List (String × α) → String → Option α
  | [], _ => none
  | (k, v) :: rest, key => if k = key then some v else lookupA rest key

/-- JS-object assignment: replace the binding in place if the key exists,
otherwise append the new binding (JS property insertion order). -/
def setEntry {α : Type} : List (String × α) → String → α → List (String × α)
  | [], key, v => [(key, v)]
  | (k, w) :: rest, key, v =>
      if k = key then (k, v) :: rest else (k, w) :: setEntry rest key v

/-- The keys of an association list, in order. -/
def keysA {α : Type} (m : List (String × α)) : List String :=
  m.map Prod.fst

/-- `Record<string, ChatNode>`: the node mapping of a tree. -/
abbrev NodeMap := List (String × ChatNode)

@[simp] theorem lookupA_nil {α : Type} (key : String) :
    lookupA ([] : List (String × α)) key = none := rfl

@[simp] theorem lookupA_cons {α : Type} (k : String) (v : α) (rest : List (String × α))
    (key : String) :
    lookupA ((k, v) :: rest) key = if k = key then some v else lookupA rest key := rfl

@[simp] theorem keysA_nil {α : Type} : keysA ([] : List (String × α)) = [] := rfl

@[simp] theorem keysA_cons {α : Type} (k : String) (v : α) (rest : List (String × α)) :
    keysA ((k, v) :: rest) = k :: keysA rest := rfl

@[simp] theorem keysA_append {α : Type} (m₁ m₂ : List (String × α)) :
    keysA (m₁ ++ m₂) = keysA m₁ ++ keysA m₂ := by
  simp [keysA]

theorem lookupA_eq_none_iff {α : Type} (m : List (String × α)) (key : String) :
    lookupA m key = none ↔ key ∉ keysA m := by
  induction m with
  | nil => simp
  | cons hd tl ih =>
      obtain ⟨k, v⟩ := hd
      by_cases hk : k = key
      · simp [hk]
      · simp [hk, ih, Ne.symm hk]

theorem lookupA_isSome_iff {α : Type} (m : List (String × α)) (key : String) :
    (lookupA m key).isSome ↔ key ∈ keysA m := by
  rw [Option.isSome_iff_ne_none, not_iff_comm, ← lookupA_eq_none_iff]

theorem lookupA_append {α : Type} (m₁ m₂ : List (String × α)) (key : String) :
    lookupA (m₁ ++ m₂) key =
      match lookupA m₁ key with
      | some v => some v
      | none => lookupA m₂ key := by
  induction m₁ with
  | nil => simp
  | cons hd tl ih =>
      obtain ⟨k, v⟩ := hd
      by_cases hk : k = key <;> simp [hk, ih]

theorem lookupA_append_left {α : Type} {m₁ : List (String × α)} {key : String} {v : α}
    (h : lookupA m₁ key = some v) (m₂ : List (String × α)) :
    lookupA (m₁ ++ m₂) key = some v := by
  rw [lookupA_append, h]

theorem lookupA_append_right {α : Type} {m₁ : List (String × α)} {key : String}
    (h : lookupA m₁ key = none) (m₂ : List (String × α)) :
    lookupA (m₁ ++ m₂) key = lookupA m₂ key := by
  rw [lookupA_append, h]

theorem setEntry_of_not_mem {α : Type} {m : List (String × α)} {key : String}
    (h : key ∉ keysA m) (v : α) :
    setEntry m key v = m ++ [(key, v)] := by
  induction m with
  | nil => rfl
  | cons hd tl ih =>
      obtain ⟨k, w⟩ := hd
      simp only [keysA_cons, List.mem_cons] at h
      push_neg at h
      simp [setEntry, Ne.symm h.1, ih h.2]

theorem setEntry_mid {α : Type} {m₁ : List (String × α)} {key : String}
    (h : key ∉ keysA m₁) (v v' : α) (m₂ : List (String × α)) :
    setEntry (m₁ ++ (key, v) :: m₂) key v' = m₁ ++ (key, v') :: m₂ := by
  induction m₁ with
  | nil => simp [setEntry]
  | cons hd tl ih =>
      obtain ⟨k, w⟩ := hd
      simp only [keysA_cons, List.mem_cons] at h
      push_neg at h
      simp [setEntry, Ne.symm h.1, ih h.2]

theorem lookupA_setEntry_self {α : Type} (m : List (String × α)) (key : String) (v : α) :
    lookupA (setEntry m key v) key = some v := by
  induction m with
  | nil => simp [setEntry]
  | cons hd tl ih =>
      obtain ⟨k, w⟩ := hd
      by_cases hk : k = key <;> simp [setEntry, hk, ih]

theorem lookupA_setEntry_ne {α : Type} (m : List (String × α)) {key key' : String}
    (h : key' ≠ key) (v : α) :
    lookupA (setEntry m key v) key' = lookupA m key' := by
  induction m with
  | nil => simp [setEntry, Ne.symm h]
  | cons hd tl ih =>
      obtain ⟨k, w⟩ := hd
      by_cases hk : k = key
      · subst hk
        simp [setEntry, Ne.symm h]
      · simp [setEntry, hk, ih]

theorem keysA_setEntry_of_mem {α : Type} {m : List (String × α)} {key : String}
    (h : key ∈ keysA m) (v : α) :
    keysA (setEntry m key v) = keysA m := by
  induction m with
  | nil => simp at h
  | cons hd tl ih =>
      obtain ⟨k, w⟩ := hd
      by_cases hk : k = key
      · simp [setEntry, hk]
      · simp only [keysA_cons, List.mem_cons] at h
        rcases h with h | h
        · exact absurd h.symm hk
        · simp [setEntry, hk, ih h]

theorem keysA_setEntry_of_not_mem {α : Type} {m : List (String × α)} {key : String}
    (h : key ∉ keysA m) (v : α) :
    keysA (setEntry m key v) = keysA m ++ [key] := by
  rw [setEntry_of_not_mem h]
  simp

/-!
### Injectivity of decimal printing of naturals

The import parser derives node ids as `"node-" ++ toString index`; the
distinctness of those keys rests on the injectivity of `Nat.toString`,
proved here by exhibiting a left inverse that reads the digits back.
-/

/-- Numeric value of a decimal digit character. -/
def digitVal (c : Char) : Nat := c.toNat - 48

/-- Read a decimal digit string back into a natural number. -/
def decodeDigits (l : List Char) : Nat :=
  l.foldl (fun a c => 10 * a + digitVal c) 0

theorem digitVal_digitChar : ∀ d : Nat, d < 10 → digitVal (Nat.digitChar d) = d := by
  decide

theorem toDigitsCore_acc (fuel : Nat) :
    ∀ (n : Nat) (ds : List Char),
      Nat.toDigitsCore 10 fuel n ds = Nat.toDigitsCore 10 fuel n [] ++ ds := by
  induction fuel with
  | zero => intro n ds; simp [Nat.toDigitsCore]
  | succ fuel ih =>
      intro n ds
      simp only [Nat.toDigitsCore]
      by_cases h : n / 10 = 0
      · simp [h]
      · simp only [h, if_false]
        rw [ih (n / 10) (Nat.digitChar (n % 10) :: ds),
          ih (n / 10) [Nat.digitChar (n % 10)]]
        simp

theorem toDigitsCore_fuel (fuel₁ : Nat) :
    ∀ (fuel₂ n : Nat) (ds : List Char), n < fuel₁ → n < fuel₂ →
      Nat.toDigitsCore 10 fuel₁ n ds = Nat.toDigitsCore 10 fuel₂ n ds := by
  induction fuel₁ with
  | zero => intro fuel₂ n ds h₁ h₂; omega
  | succ fuel₁ ih =>
      intro fuel₂ n ds h₁ h₂
      obtain ⟨fuel₂', rfl⟩ : ∃ k, fuel₂ = k + 1 := ⟨fuel₂ - 1, by omega⟩
      simp only [Nat.toDigitsCore]
      by_cases h : n / 10 = 0
      · simp [h]
      · have hn : 0 < n := by
          rcases Nat.eq_zero_or_pos n with h0 | h0
          · subst h0; simp at h
          · exact h0
        have hlt : n / 10 < n := Nat.div_lt_self hn (by norm_num)
        simp only [h, if_false]
        exact ih fuel₂' (n / 10) _ (by omega) (by omega)

theorem decodeDigits_toDigits (n : Nat) :
    decodeDigits (Nat.toDigits 10 n) = n := by
  induction n using Nat.strong_induction_on with
  | _ n ih =>
      unfold Nat.toDigits
      simp only [Nat.toDigitsCore]
      by_cases h : n / 10 = 0
      · have hn : n < 10 := by omega
        have : n % 10 = n := Nat.mod_eq_of_lt hn
        simp [h, this, decodeDigits, digitVal_digitChar n hn]
      · have hn : 0 < n := by
          rcases Nat.eq_zero_or_pos n with h0 | h0
          · subst h0; simp at h
          · exact h0
        have hlt : n / 10 < n := Nat.div_lt_self hn (by norm_num)
        simp only [h, if_false]
        rw [toDigitsCore_acc]
        rw [toDigitsCore_fuel n (n / 10 + 1) (n / 10) [] hlt (Nat.lt_succ_self _)]
        have hdec := ih (n / 10) hlt
        unfold Nat.toDigits at hdec
        simp only [decodeDigits] at hdec ⊢
        rw [List.foldl_append, hdec]
        simp [digitVal_digitChar (n % 10) (Nat.mod_lt n (by norm_num))]
        omega

theorem natToString_inj {m n : Nat} (h : toString m = toString n) : m = n := by
  have hrepr : Nat.repr m = Nat.repr n := h
  unfold Nat.repr at hrepr
  have hdata : (Nat.toDigits 10 m) = (Nat.toDigits 10 n) := by
    have := congrArg String.data hrepr
    simpa [List.asString] using this
  have := congrArg decodeDigits hdata
  rwa [decodeDigits_toDigits, decodeDigits_toDigits] at this

/-!
### The import parser (`parseImportedJson`, `src/lib/tree-utils.ts`)
-/

/-- The deterministic id of the node built from the pair at `index`:
the template literal `node-${index}`. -/
def nodeId (i : Nat) : String := "node-" ++ toString i

theorem nodeId_inj {i j : Nat} (h : nodeId i = nodeId j) : i = j := by
  unfold nodeId at h
  have hdata := congrArg String.data h
  simp only [String.data_append] at hdata
  have : (toString i).data = (toString j).data := by
    exact List.append_cancel_left hdata
  exact natToString_inj (String.ext this)

theorem nodeId_ne_empty (i : Nat) : nodeId i ≠ "" := by
  intro h
  have hdata := congrArg String.data h
  simp only [nodeId, String.data_append] at hdata
  have hnil : ("node-" : String).data = [] := (List.append_eq_nil.mp hdata).1
  exact absurd hnil (by decide)

/-- Message role in the ChatGPT Exporter JSON (`"Prompt" | "Response"`). -/
inductive MsgRole where
  | prompt
  | response
  deriving DecidableEq, Repr

/-- One entry of the exported `messages` array: `{ role, say }`. -/
structure ExportedMessage where
  role : MsgRole
  say : String
  deriving DecidableEq, Repr

/-- The pairing loop of `parseImportedJson` (`for (let i = 0; ...)` with the
`i++` skip after consuming a response), embedded as recursion on the index. -/
def pairScanAux (msgs : List ExportedMessage) (i : Nat) : List (String × String) :=
  if h : i < msgs.length then
    match msgs[i].role with
    | MsgRole.prompt =>
        match msgs[i + 1]? with
        | some next =>
            if next.role = MsgRole.response then
              (msgs[i].say, next.say) :: pairScanAux msgs (i + 2)
            else
              (msgs[i].say, "") :: pairScanAux msgs (i + 1)
        | none => (msgs[i].say, "") :: pairScanAux msgs (i + 1)
    | MsgRole.response => pairScanAux msgs (i + 1)
  else []
termination_by msgs.length - i

/-- The pairing scan started at index 0, as `parseImportedJson` runs it. -/
def pairScan (msgs : List ExportedMessage) : List (String × String) :=
  pairScanAux msgs 0

/-- Structural characterization of the pairing scan, used to reason about it. -/
def pairMessages : List ExportedMessage → List (String × String)
  | [] => []
  | m :: rest =>
      match m.role with
      | MsgRole.response => pairMessages rest
      | MsgRole.prompt =>
          match rest with
          | next :: rest₂ =>
              if next.role = MsgRole.response then
                (m.say, next.say) :: pairMessages rest₂
              else
                (m.say, "") :: pairMessages (next :: rest₂)
          | [] => [(m.say, "")]

theorem pairScanAux_eq_pairMessages_drop (msgs : List ExportedMessage) :
    ∀ i, pairScanAux msgs i = pairMessages (msgs.drop i) := by
  suffices H : ∀ n i, msgs.length - i ≤ n →
      pairScanAux msgs i = pairMessages (msgs.drop i) by
    intro i; exact H (msgs.length - i) i le_rfl
  intro n
  induction n with
  | zero =>
      intro i hle
      have hge : msgs.length ≤ i := by omega
      rw [pairScanAux, dif_neg (by omega), List.drop_eq_nil_of_le hge]
      rfl
  | succ n ih =>
      intro i hle
      by_cases hi : i < msgs.length
      · have hdrop : msgs.drop i = msgs[i] :: msgs.drop (i + 1) :=
          List.drop_eq_getElem_cons hi
        rw [pairScanAux, dif_pos hi, hdrop]
        cases hm : msgs[i] with
        | mk r s =>
        cases r with
        | prompt =>
            by_cases hi1 : i + 1 < msgs.length
            · have hget : msgs[i + 1]? = some msgs[i + 1] :=
                List.getElem?_eq_getElem hi1
              have hdrop1 : msgs.drop (i + 1) = msgs[i + 1] :: msgs.drop (i + 2) :=
                List.drop_eq_getElem_cons hi1
              rw [hget, hdrop1]
              cases hm1 : msgs[i + 1] with
              | mk r1 s1 =>
              cases r1 with
              | response =>
                  rw [ih (i + 2) (by omega)]
                  simp [pairMessages]
              | prompt =>
                  rw [ih (i + 1) (by omega), hdrop1, hm1]
                  simp [pairMessages]
            · have hget : msgs[i + 1]? = none := by
                rw [List.getElem?_eq_none_iff]; omega
              have hdrop1 : msgs.drop (i + 1) = [] :=
                List.drop_eq_nil_of_le (by omega)
              rw [hget, hdrop1, ih (i + 1) (by omega), hdrop1]
              simp [pairMessages]
        | response =>
            rw [ih (i + 1) (by omega)]
            simp [pairMessages]
      · rw [pairScanAux, dif_neg hi, List.drop_eq_nil_of_le (by omega)]
        rfl

theorem pairScan_eq_pairMessages (msgs : List ExportedMessage) :
    pairScan msgs = pairMessages msgs := by
  simpa using pairScanAux_eq_pairMessages_drop msgs 0

/-- User identity in the export metadata. -/
structure UserInfo where
  name : String
  email : String
  deriving DecidableEq, Repr

/-- Lifecycle timestamps in the export metadata. -/
structure LifeDates where
  created : String
  updated : String
  exported : String
  deriving DecidableEq, Repr

/-- `ConversationMetadata` from `src/lib/types.ts`. -/
structure ConversationMetadata where
  title : String
  user : UserInfo
  dates : LifeDates
  deriving DecidableEq, Repr

/-- The metadata object of the raw import JSON; each field may be absent
(`undefined` in JS). -/
structure RawMetadata where
  title : Option String
  user : Option UserInfo
  dates : Option LifeDates
  deriving DecidableEq, Repr

/-- The raw parsed JSON value handed to `parseImportedJson`: `metadata` may be
missing/falsy and `messages` may be missing or not an array (both modeled as
`none`). -/
structure RawImport where
  metadata : Option RawMetadata
  messages : Option (List ExportedMessage)
  deriving DecidableEq, Repr

/-- `ConversationTree` from `src/lib/types.ts`. -/
structure ConversationTree where
  metadata : ConversationMetadata
  nodes : NodeMap
  rootId : String
  deriving DecidableEq, Repr

/-- The two import-time failures thrown by `parseImportedJson`:
`"Invalid ChatGPT Exporter JSON format"` and
`"No prompt/response pairs found in the JSON"`. -/
inductive ImportError where
  | invalidFormat
  | emptyConversation
  deriving DecidableEq, Repr

/-- Metadata defaulting of `parseImportedJson`: `title || "Imported
Conversation"` (the `||` also replaces an empty title, since `""` is falsy),
`user || {name:"Unknown", email:""}`, `dates || {created:"",...}`. -/
def defaultedMetadata (m : RawMetadata) : ConversationMetadata where
  title :=
    match m.title with
    | some t => if t = "" then "Imported Conversation" else t
    | none => "Imported Conversation"
  user := m.user.getD ⟨"Unknown", ""⟩
  dates := m.dates.getD ⟨"", "", ""⟩

/-- The `pairs.forEach((pair, index) => ...)` loop of `parseImportedJson`,
threading the mutable `prevId` / `rootId` variables and the `nodes` record.
`nodes[prevId].childIds.push(id)` is modeled by rebinding `prevId` to the
node with the id appended (observationally identical to the in-place push). -/
def buildChainAux : List (String × String) → Nat → Option String → String → NodeMap →
    NodeMap × String
  | [], _, _, rootId, nodes => (nodes, rootId)
  | pair :: rest, index, prevId, rootId, nodes =>
      let id := nodeId index
      let rootId' := if index = 0 then id else rootId
      let nodes₁ := setEntry nodes id
        ⟨id, pair.1, pair.2, prevId, [], NodeSource.imported⟩
      let nodes₂ :=
        match prevId with
        | some pv =>
            match lookupA nodes₁ pv with
            | some pn => setEntry nodes₁ pv { pn with childIds := pn.childIds ++ [id] }
            | none => nodes₁
        | none => nodes₁
      buildChainAux rest (index + 1) (some id) rootId' nodes₂

/-- `parseImportedJson` from `src/lib/tree-utils.ts`. -/
def parseImportedJson (raw : RawImport) : Except ImportError ConversationTree :=
  match raw.metadata, raw.messages with
  | some md, some msgs =>
      let pairs := pairScan msgs
      if pairs.length = 0 then Except.error ImportError.emptyConversation
      else
        let built := buildChainAux pairs 0 none "" []
        Except.ok ⟨defaultedMetadata md, built.1, built.2⟩
  | _, _ => Except.error ImportError.invalidFormat

/-!
### The root-path walker (`getPathToRoot`)

The JS `while (current)` loop is embedded with fuel; one unit of fuel is one
iteration.  `none` means the loop has not finished within the budget.  The
loop condition is JS truthiness: it stops on `null` and on the empty string.
-/

/-- One-iteration-per-fuel embedding of the `while (current)` loop of
`getPathToRoot`. -/
def getPathToRootFuel (nodes : NodeMap) : Nat → Option String → List String →
    Option (List String)
  | _, none, path => some path
  | 0, some c, path => if c = "" then some path else none
  | fuel + 1, some c, path =>
      if c = "" then some path
      else
        getPathToRootFuel nodes fuel
          (match lookupA nodes c with
           | some nd => nd.parentId
           | none => none)
          (c :: path)

/-- `getPathToRoot` from `src/lib/tree-utils.ts`.  Any terminating run of the
JS loop visits pairwise-distinct ids of which all but the last looked-up one
are keys, so `nodes.length + 1` iterations suffice for every terminating run;
`none` therefore means the JS loop diverges on this input. -/
def getPathToRoot (nodeId : String) (nodes : NodeMap) : Option (List String) :=
  getPathToRootFuel nodes (nodes.length + 1) (some nodeId) []

/-- Role tag of a chat-history message (`"user" | "assistant"`). -/
inductive ChatRole where
  | user
  | assistant
  deriving DecidableEq, Repr

/-- One `{ role, content }` entry produced by `buildChatHistory`. -/
structure ChatMessage where
  role : ChatRole
  content : String
  deriving DecidableEq, Repr

/-- The loop body of `buildChatHistory` for one node: JS truthiness again —
empty prompt/response strings are skipped. -/
def nodeMessages (nd : ChatNode) : List ChatMessage :=
  (if nd.prompt = "" then [] else [⟨ChatRole.user, nd.prompt⟩]) ++
    (if nd.response = "" then [] else [⟨ChatRole.assistant, nd.response⟩])

/-- The `for (const id of path)` loop of `buildChatHistory`; `none` models the
TypeError thrown by `nodes[id].prompt` when `id` is not a key. -/
def buildChatHistoryAux (nodes : NodeMap) : List String → Option (List ChatMessage)
  | [] => some []
  | id :: rest =>
      match lookupA nodes id with
      | none => none
      | some nd => (buildChatHistoryAux nodes rest).map (fun ms => nodeMessages nd ++ ms)

/-- `buildChatHistory` from `src/lib/tree-utils.ts`. -/
def buildChatHistory (nodeId : String) (nodes : NodeMap) : Option (List ChatMessage) :=
  match getPathToRoot nodeId nodes with
  | none => none
  | some path => buildChatHistoryAux nodes path

/-!
### The branch creator (`createBranchNode`)

The source generates the fresh id as
`` `node-${Date.now()}-${Math.random().toString(36).slice(2, 6)}` ``; the
clock/randomness side effect is outside a pure embedding, so the generated id
is passed as the `newId` parameter.  The error case models the TypeError the
source throws from `updated[parentId].childIds` when the parent id is not a
key (the spec calls this failure `ParentNotFound`).
-/

inductive BranchError where
  | parentNotFound
  deriving DecidableEq, Repr

/-- `createBranchNode` from `src/lib/tree-utils.ts`. -/
def createBranchNode (newId : String) (parentId : String) (nodes : NodeMap) :
    Except BranchError (NodeMap × String) :=
  let updated := setEntry nodes newId ⟨newId, "", "", some parentId, [], NodeSource.generated⟩
  match lookupA updated parentId with
  | none => Except.error BranchError.parentNotFound
  | some pn =>
      Except.ok (setEntry updated parentId { pn with childIds := pn.childIds ++ [newId] }, newId)

/-!
### The application state container (reducer of the store module)

The reducer is embedded as a pure transition function.  The `localStorage`
writes of `UPDATE_SETTINGS` and the `localStorage` read of `INIT_SETTINGS`
are I/O outside the state machine; the loaded settings are therefore a
parameter of the `initSettings` action, and the fresh node id generated by
`createBranchNode` (clock + randomness) is a parameter of `branchFromNode`.
The result is `Except`: an `error` is an exception escaping the reducer
(the uncaught TypeError of `createBranchNode` on a missing parent).
-/

/-- `ApiProvider` from `src/lib/types.ts`. -/
inductive ApiProvider where
  | gateway
  | gemini
  deriving DecidableEq, Repr

/-- `Settings` from `src/lib/types.ts`. -/
structure Settings where
  apiProvider : ApiProvider
  geminiApiKey : String
  geminiModel : String
  deriving DecidableEq, Repr

/-- `Partial<Settings>`: each field present or absent. -/
structure SettingsPatch where
  apiProvider : Option ApiProvider
  geminiApiKey : Option String
  geminiModel : Option String
  deriving DecidableEq, Repr

/-- JS object spread `{ ...settings, ...patch }`. -/
def mergeSettings (s : Settings) (p : SettingsPatch) : Settings where
  apiProvider := p.apiProvider.getD s.apiProvider
  geminiApiKey := p.geminiApiKey.getD s.geminiApiKey
  geminiModel := p.geminiModel.getD s.geminiModel

/-- `Partial<ChatNode>`: each field present or absent. -/
structure NodePatch where
  id : Option String
  prompt : Option String
  response : Option String
  parentId : Option (Option String)
  childIds : Option (List String)
  source : Option NodeSource
  deriving DecidableEq, Repr

/-- JS object spread `{ ...node, ...patch }`. -/
def mergeNode (nd : ChatNode) (p : NodePatch) : ChatNode where
  id := p.id.getD nd.id
  prompt := p.prompt.getD nd.prompt
  response := p.response.getD nd.response
  parentId := p.parentId.getD nd.parentId
  childIds := p.childIds.getD nd.childIds
  source := p.source.getD nd.source

/-- `ViewMode` from `src/lib/types.ts`. -/
inductive ViewMode where
  | tree
  | path
  deriving DecidableEq, Repr

/-- `AppState` of the store. -/
structure AppState where
  tree : Option ConversationTree
  selectedNodeId : Option String
  activeView : ViewMode
  settings : Settings
  deriving DecidableEq, Repr

/-- The store's `Action` union. -/
inductive Action where
  | importTree (tree : ConversationTree)
  | selectNode (nodeId : Option String)
  | setView (view : ViewMode)
  | updateSettings (patch : SettingsPatch)
  | branchFromNode (nodeId : String) (freshId : String)
  | updateNode (nodeId : String) (patch : NodePatch)
  | initSettings (loaded : Settings)
  deriving DecidableEq, Repr

/-- The store's `reducer`. -/
def reducer (state : AppState) (action : Action) : Except BranchError AppState :=
  match action with
  | Action.importTree t =>
      Except.ok { state with
        tree := some t
        selectedNodeId := some t.rootId
        activeView := ViewMode.tree }
  | Action.selectNode o => Except.ok { state with selectedNodeId := o }
  | Action.setView v => Except.ok { state with activeView := v }
  | Action.updateSettings p =>
      Except.ok { state with settings := mergeSettings state.settings p }
  | Action.branchFromNode nid fid =>
      match state.tree with
      | none => Except.ok state
      | some t =>
          match createBranchNode fid nid t.nodes with
          | Except.error e => Except.error e
          | Except.ok (m, newId) =>
              Except.ok { state with
                tree := some { t with nodes := m }
                selectedNodeId := some newId
                activeView := ViewMode.path }
  | Action.updateNode nid p =>
      match state.tree with
      | none => Except.ok state
      | some t =>
          match lookupA t.nodes nid with
          | none => Except.ok state
          | some nd =>
              Except.ok { state with
                tree := some { t with nodes := setEntry t.nodes nid (mergeNode nd p) } }
  | Action.initSettings l => Except.ok { state with settings := l }

/-!
### The layout engine (`computeTreeLayout`)

JS numbers are embedded as rationals (the algorithm only adds, multiplies
and halves coordinates).  The recursion of `layoutNode` follows `childIds`
links and diverges on a cyclic mapping, so it carries fuel measuring the
recursion depth; any terminating run of the JS recursion descends through
pairwise-distinct keys, so depth `nodes.length + 1` suffices for every
terminating run and `none` means the JS recursion diverges (or overflows the
stack) on this input.
-/

/-- `LayoutPosition` (`{x, y}`) from `src/lib/tree-utils.ts`. -/
structure LayoutPosition where
  x : ℚ
  y : ℚ
  deriving DecidableEq, Repr

/-- The `Map<string, LayoutPosition>` result (JS `Map` has the same
first-match/insertion-order semantics as our association lists). -/
abbrev PosMap := List (String × LayoutPosition)

/-- The two mutable variables captured by the `layoutNode` closure:
`leafCounter` and the `positions` map. -/
structure LayoutState where
  leafCounter : Nat
  positions : PosMap
  deriving DecidableEq, Repr

/-- The `for (const childId of node.childIds)` loop of `layoutNode`,
threading `globalMin`/`globalMax` (the `Option` accumulator stands for the
`Infinity`/`-Infinity` initial values) and the mutable state.  `f` is the
recursive call at one less fuel. -/
def layoutKids (f : String → LayoutState → Option ((ℚ × ℚ) × LayoutState)) :
    List String → Option (ℚ × ℚ) → LayoutState → Option (Option (ℚ × ℚ) × LayoutState)
  | [], acc, st => some (acc, st)
  | c :: cs, acc, st =>
      match f c st with
      | none => none
      | some ((mn, mx), st') =>
          layoutKids f cs
            (match acc with
             | none => some (mn, mx)
             | some (gn, gx) => some (min gn mn, max gx mx)) st'

/-- The recursive `layoutNode` closure of `computeTreeLayout`.  Returns the
`{minX, maxX}` extents and the updated mutable state. -/
def layoutNode (nodes : NodeMap) (nodeWidth nodeHeight hGap vGap : ℚ) :
    Nat → String → Nat → LayoutState → Option ((ℚ × ℚ) × LayoutState)
  | 0, _, _, _ => none
  | fuel + 1, id, depth, st =>
      match lookupA nodes id with
      | none => some ((0, 0), st)
      | some node =>
          let y : ℚ := (depth : ℚ) * (nodeHeight + vGap)
          if node.childIds = [] then
            some (((st.leafCounter : ℚ) * (nodeWidth + hGap),
                   (st.leafCounter : ℚ) * (nodeWidth + hGap)),
              ⟨st.leafCounter + 1,
               setEntry st.positions id
                 ⟨(st.leafCounter : ℚ) * (nodeWidth + hGap), y⟩⟩)
          else
            match layoutKids
                (fun c st' => layoutNode nodes nodeWidth nodeHeight hGap vGap fuel c (depth + 1) st')
                node.childIds none st with
            | none => none
            | some (none, _) => none
            | some (some (mn, mx), st') =>
                some ((mn, mx),
                  ⟨st'.leafCounter, setEntry st'.positions id ⟨(mn + mx) / 2, y⟩⟩)

/-- `computeTreeLayout` from `src/lib/tree-utils.ts` (dimension parameters
explicit; the source defaults are 240, 120, 40, 60). -/
def computeTreeLayout (rootId : String) (nodes : NodeMap)
    (nodeWidth nodeHeight hGap vGap : ℚ) : Option PosMap :=
  (layoutNode nodes nodeWidth nodeHeight hGap vGap (nodes.length + 1) rootId 0 ⟨0, []⟩).map
    (fun r => r.2.positions)

/-!
### Spec-side finite trees

`extract` unfolds the child graph of a node mapping into an inductive rose
tree; success of the extraction (for some fuel) is the shape
well-formedness used as hypothesis for the layout theorem: every reachable
child id is a key and the child graph is acyclic below the root.
-/

/-- A rose tree of node ids. -/
inductive LTree where
  | mk (id : String) (children : List LTree)

/-- Sequence an optional list. -/
def optList {α : Type} : List (Option α) → Option (List α)
  | [] => some []
  | none :: _ => none
  | some a :: rest => (optList rest).map (fun l => a :: l)

/-- Unfold the child graph below `id` into a rose tree (fuel bounds depth). -/
def extract (nodes : NodeMap) : Nat → String → Option LTree
  | 0, _ => none
  | fuel + 1, id =>
      match lookupA nodes id with
      | none => none
      | some nd => (optList (nd.childIds.map (extract nodes fuel))).map (LTree.mk id)

mutual

/-- Ids of a rose tree, in the post-order in which `layoutNode` assigns
positions. -/
def tIds : LTree → List String
  | LTree.mk i cs => tIdsL cs ++ [i]

def tIdsL : List LTree → List String
  | [] => []
  | t :: ts => tIds t ++ tIdsL ts

end

mutual

/-- Number of leaves of a rose tree (a childless node is one leaf). -/
def tLeaves : LTree → Nat
  | LTree.mk _ [] => 1
  | LTree.mk _ (c :: cs) => tLeavesL (c :: cs)

def tLeavesL : List LTree → Nat
  | [] => 0
  | t :: ts => tLeaves t + tLeavesL ts

end

mutual

/-- Leaf ids of a rose tree in depth-first `childIds` order. -/
def tLeafList : LTree → List String
  | LTree.mk i [] => [i]
  | LTree.mk _ (c :: cs) => tLeafListL (c :: cs)

def tLeafListL : List LTree → List String
  | [] => []
  | t :: ts => tLeafList t ++ tLeafListL ts

end

mutual

/-- `(id, depth)` pairs of all nodes of a rose tree rooted at depth `d`. -/
def tDepths : LTree → Nat → List (String × Nat)
  | LTree.mk i cs, d => (i, d) :: tDepthsL cs (d + 1)

def tDepthsL : List LTree → Nat → List (String × Nat)
  | [], _ => []
  | t :: ts, d => tDepths t d ++ tDepthsL ts d

end

mutual

/-- All subtrees of a rose tree. -/
def tSubs : LTree → List LTree
  | LTree.mk i cs => LTree.mk i cs :: tSubsL cs

def tSubsL : List LTree → List LTree
  | [] => []
  | t :: ts => tSubs t ++ tSubsL ts

end

mutual

/-- The positions `layoutNode` assigns inside the subtree `t` laid out at
depth `d` with the leaf counter at `c`, in assignment (post-) order. -/
def tAssigns (W H hG vG : ℚ) : LTree → Nat → Nat → PosMap
  | LTree.mk i [], d, c =>
      [(i, ⟨(c : ℚ) * (W + hG), (d : ℚ) * (H + vG)⟩)]
  | LTree.mk i (k :: ks), d, c =>
      tAssignsL W H hG vG (k :: ks) (d + 1) c ++
        [(i, ⟨((c : ℚ) * (W + hG) +
                ((c : ℚ) + (tLeavesL (k :: ks) : ℚ) - 1) * (W + hG)) / 2,
              (d : ℚ) * (H + vG)⟩)]

def tAssignsL (W H hG vG : ℚ) : List LTree → Nat → Nat → PosMap
  | [], _, _ => []
  | t :: ts, d, c =>
      tAssigns W H hG vG t d c ++ tAssignsL W H hG vG ts d (c + tLeaves t)

end

/-- Evaluation of the `globalMin`/`globalMax` fold of `layoutNode` over the
extents of a list of successive subtrees, leaf counter starting at `c`. -/
def listExtend (W hG : ℚ) : Option (ℚ × ℚ) → List LTree → Nat → Option (ℚ × ℚ)
  | acc, [], _ => acc
  | acc, t :: ts, c =>
      listExtend W hG
        (match acc with
         | none => some ((c : ℚ) * (W + hG), ((c : ℚ) + (tLeaves t : ℚ) - 1) * (W + hG))
         | some (gn, gx) =>
             some (min gn ((c : ℚ) * (W + hG)),
                   max gx (((c : ℚ) + (tLeaves t : ℚ) - 1) * (W + hG))))
        ts (c + tLeaves t)

/-!
## Claim theorems
-/

/-- **C2.** The import pairing scan proceeds left to right: a `Prompt`
immediately followed by a `Response` forms a pair consuming both messages
(the response is not reprocessed); a `Prompt` followed by another `Prompt`,
or at the end of the sequence, forms a pair with empty response; a
`Response` that is not immediately preceded by an unpaired `Prompt` is
silently dropped and produces no pair. -/
theorem C2_pairing_scan_behavior :
    (∀ p r rest, pairScan (⟨MsgRole.prompt, p⟩ :: ⟨MsgRole.response, r⟩ :: rest) =
      (p, r) :: pairScan rest) ∧
    (∀ p q rest, pairScan (⟨MsgRole.prompt, p⟩ :: ⟨MsgRole.prompt, q⟩ :: rest) =
      (p, "") :: pairScan (⟨MsgRole.prompt, q⟩ :: rest)) ∧
    (∀ p, pairScan [⟨MsgRole.prompt, p⟩] = [(p, "")]) ∧
    (∀ r rest, pairScan (⟨MsgRole.response, r⟩ :: rest) = pairScan rest) := by
  refine ⟨fun p r rest => ?_, fun p q rest => ?_, fun p => ?_, fun r rest => ?_⟩ <;>
    simp only [pairScan_eq_pairMessages] <;> simp [pairMessages]

/-- **C7, counterexample.** The claim says `getPathToRoot` returns the empty
sequence when the starting id is not a key; in fact the starting id is
pushed before its lookup fails, so the result is the one-element path. -/
theorem C7_missing_id_not_empty_path :
    getPathToRoot "x" ([] : NodeMap) = some ["x"] ∧
      some ["x"] ≠ some ([] : List String) := by
  constructor
  · rfl
  · decide

/-- **C7, amended.** For a starting id that is not a key of the mapping,
`getPathToRoot` returns the one-element sequence holding just that id —
except for the empty-string id, which is falsy in JS, where the loop does
not run at all and the result is the empty sequence. -/
theorem C7_missing_id_singleton_path (nodes : NodeMap) (id : String)
    (h : lookupA nodes id = none) :
    getPathToRoot id nodes = some (if id = "" then [] else [id]) := by
  unfold getPathToRoot
  by_cases he : id = ""
  · subst he
    simp [getPathToRootFuel]
  · rw [getPathToRootFuel, if_neg he, h]
    simp [getPathToRootFuel, he]

/-- Witness for C7 at a concrete missing id. -/
theorem C7_missing_id_witness :
    lookupA ([] : NodeMap) "ghost" = none ∧
      getPathToRoot "ghost" ([] : NodeMap) = some (if "ghost" = "" then [] else ["ghost"]) :=
  ⟨rfl, C7_missing_id_singleton_path [] "ghost" rfl⟩

/-- A malformed mapping whose `parentId` links form a two-cycle. -/
def cycleNodes : NodeMap :=
  [("a", ⟨"a", "", "", some "b", [], NodeSource.imported⟩),
   ("b", ⟨"b", "", "", some "a", [], NodeSource.imported⟩)]

theorem cycle_walk_stuck : ∀ fuel path,
    getPathToRootFuel cycleNodes fuel (some "a") path = none ∧
    getPathToRootFuel cycleNodes fuel (some "b") path = none := by
  intro fuel
  induction fuel with
  | zero =>
      intro path
      exact ⟨rfl, rfl⟩
  | succ fuel ih =>
      intro path
      refine ⟨?_, ?_⟩
      · show getPathToRootFuel cycleNodes fuel (some "b") ("a" :: path) = none
        exact (ih _).2
      · show getPathToRootFuel cycleNodes fuel (some "a") ("b" :: path) = none
        exact (ih _).1

/-- **C8.** The claim (with the spec) requires the walk to be bounded by the
total node count and to fail with `CycleDetected` when the bound is
exceeded.  The source has no such guard: on a mapping with a `parentId`
cycle the `while (current)` loop never finishes — no iteration budget
whatsoever completes the walk — and no `CycleDetected` failure exists
anywhere in the source.  The code, not the claim, is at fault here (the
spec itself notes the source omits the guard). -/
theorem C8_cycle_walk_never_finishes :
    (∀ fuel path, getPathToRootFuel cycleNodes fuel (some "a") path = none) ∧
    getPathToRoot "a" cycleNodes = none :=
  ⟨fun fuel path => (cycle_walk_stuck fuel path).1, (cycle_walk_stuck 3 []).1⟩

/-- **C9.** `createBranchNode` fails — the spec's `ParentNotFound`, realized
in the source as the TypeError thrown from `updated[parentId].childIds` —
exactly when the given parent id is not a key of the mapping.  (In the pure
embedding the input mapping is untouched by construction, so a failed call
never corrupts the tree: the error branch returns no mapping at all.)  The
hypothesis `newId ≠ parentId` holds for the source's generated ids, which
are fresh for the whole process lifetime. -/
theorem C9_branch_error_iff_parent_missing (newId parentId : String) (nodes : NodeMap)
    (hne : newId ≠ parentId) :
    createBranchNode newId parentId nodes = Except.error BranchError.parentNotFound ↔
      lookupA nodes parentId = none := by
  simp only [createBranchNode]
  rw [lookupA_setEntry_ne nodes (Ne.symm hne)]
  cases h : lookupA nodes parentId with
  | none => simp
  | some pn => simp

/-- Witness for C9 at a concrete missing parent. -/
theorem C9_branch_error_witness :
    "node-170-q1w2" ≠ "p" ∧
      (createBranchNode "node-170-q1w2" "p" ([] : NodeMap) =
          Except.error BranchError.parentNotFound ↔
        lookupA ([] : NodeMap) "p" = none) :=
  ⟨by decide, C9_branch_error_iff_parent_missing "node-170-q1w2" "p" [] (by decide)⟩

/-- **C3.** For a mapping containing the parent id, `createBranchNode`
returns a mapping with all original entries plus exactly one new node
(empty prompt and response, `parentId` the given parent, source
`generated`, no children); the parent's `childIds` gains the new id at the
end, every other entry is unchanged (value equality), and a second call on
the same parent with a fresh id yields a second, distinct child and grows
the parent's `childIds` by exactly two in total.  (The input mapping itself
is never mutated: the source copies it with a spread, and the embedding is
pure.)  Freshness of the generated ids is the `lookupA … = none`
hypotheses. -/
theorem C3_createBranchNode_shape (newId parentId : String) (nodes : NodeMap)
    (pn : ChatNode)
    (hfresh : lookupA nodes newId = none)
    (hparent : lookupA nodes parentId = some pn) :
    ∃ m, createBranchNode newId parentId nodes = Except.ok (m, newId) ∧
      lookupA m newId = some ⟨newId, "", "", some parentId, [], NodeSource.generated⟩ ∧
      lookupA m parentId = some { pn with childIds := pn.childIds ++ [newId] } ∧
      (∀ k, k ≠ newId → k ≠ parentId → lookupA m k = lookupA nodes k) ∧
      keysA m = keysA nodes ++ [newId] ∧
      (∀ newId₂, lookupA m newId₂ = none →
        ∃ m₂, createBranchNode newId₂ parentId m = Except.ok (m₂, newId₂) ∧
          newId₂ ≠ newId ∧
          lookupA m₂ parentId = some { pn with childIds := pn.childIds ++ [newId, newId₂] } ∧
          keysA m₂ = keysA nodes ++ [newId, newId₂]) := by
  have hne : newId ≠ parentId := by
    intro h; rw [h, hparent] at hfresh; exact Option.noConfusion hfresh
  set newNode : ChatNode := ⟨newId, "", "", some parentId, [], NodeSource.generated⟩ with hnew
  have hupd : lookupA (setEntry nodes newId newNode) parentId = some pn := by
    rw [lookupA_setEntry_ne nodes (Ne.symm hne), hparent]
  have hres : createBranchNode newId parentId nodes =
      Except.ok (setEntry (setEntry nodes newId newNode) parentId
        { pn with childIds := pn.childIds ++ [newId] }, newId) := by
    simp only [createBranchNode]
    rw [hupd]
  set m := setEntry (setEntry nodes newId newNode) parentId
    { pn with childIds := pn.childIds ++ [newId] } with hm
  have hmnew : lookupA m newId = some newNode := by
    rw [hm, lookupA_setEntry_ne _ hne, lookupA_setEntry_self]
  have hmpar : lookupA m parentId = some { pn with childIds := pn.childIds ++ [newId] } :=
    lookupA_setEntry_self _ _ _
  have hother : ∀ k, k ≠ newId → k ≠ parentId → lookupA m k = lookupA nodes k := by
    intro k hk1 hk2
    rw [hm, lookupA_setEntry_ne _ hk2, lookupA_setEntry_ne _ hk1]
  have hkeys : keysA m = keysA nodes ++ [newId] := by
    have h1 : keysA (setEntry nodes newId newNode) = keysA nodes ++ [newId] :=
      keysA_setEntry_of_not_mem ((lookupA_eq_none_iff nodes newId).mp hfresh) _
    have hmem : parentId ∈ keysA (setEntry nodes newId newNode) := by
      rw [← lookupA_isSome_iff, hupd]; rfl
    rw [hm, keysA_setEntry_of_mem hmem, h1]
  refine ⟨m, hres, hmnew, hmpar, hother, hkeys, ?_⟩
  intro newId₂ hfresh₂
  have hne₂ : newId₂ ≠ parentId := by
    intro h; rw [h, hmpar] at hfresh₂; exact Option.noConfusion hfresh₂
  have hne₂₁ : newId₂ ≠ newId := by
    intro h; rw [h, hmnew] at hfresh₂; exact Option.noConfusion hfresh₂
  set newNode₂ : ChatNode := ⟨newId₂, "", "", some parentId, [], NodeSource.generated⟩ with hnew₂
  have hupd₂ : lookupA (setEntry m newId₂ newNode₂) parentId =
      some { pn with childIds := pn.childIds ++ [newId] } := by
    rw [lookupA_setEntry_ne _ (Ne.symm hne₂), hmpar]
  have hres₂ : createBranchNode newId₂ parentId m =
      Except.ok (setEntry (setEntry m newId₂ newNode₂) parentId
        { pn with childIds := (pn.childIds ++ [newId]) ++ [newId₂] }, newId₂) := by
    simp only [createBranchNode]
    rw [hupd₂]
  refine ⟨setEntry (setEntry m newId₂ newNode₂) parentId
      { pn with childIds := (pn.childIds ++ [newId]) ++ [newId₂] }, hres₂, hne₂₁, ?_, ?_⟩
  · rw [lookupA_setEntry_self]
    simp
  · have h1 : keysA (setEntry m newId₂ newNode₂) = keysA m ++ [newId₂] :=
      keysA_setEntry_of_not_mem ((lookupA_eq_none_iff m newId₂).mp hfresh₂) _
    have hmem₂ : parentId ∈ keysA (setEntry m newId₂ newNode₂) := by
      rw [← lookupA_isSome_iff, hupd₂]; rfl
    rw [keysA_setEntry_of_mem hmem₂, h1, hkeys]
    simp

/-- Witness for C3 at a concrete one-node mapping. -/
theorem C3_branch_witness :
    lookupA [("p", (⟨"p", "hi", "yo", none, [], NodeSource.imported⟩ : ChatNode))]
        "node-1-aaaa" = none ∧
    lookupA [("p", (⟨"p", "hi", "yo", none, [], NodeSource.imported⟩ : ChatNode))] "p" =
      some ⟨"p", "hi", "yo", none, [], NodeSource.imported⟩ ∧
    (∃ m, createBranchNode "node-1-aaaa" "p"
        [("p", ⟨"p", "hi", "yo", none, [], NodeSource.imported⟩)] = Except.ok (m, "node-1-aaaa") ∧
      lookupA m "node-1-aaaa" =
        some ⟨"node-1-aaaa", "", "", some "p", [], NodeSource.generated⟩ ∧
      lookupA m "p" = some ⟨"p", "hi", "yo", none, ["node-1-aaaa"], NodeSource.imported⟩ ∧
      (∀ k, k ≠ "node-1-aaaa" → k ≠ "p" → lookupA m k =
        lookupA [("p", ⟨"p", "hi", "yo", none, [], NodeSource.imported⟩)] k) ∧
      keysA m = keysA [("p", (⟨"p", "hi", "yo", none, [], NodeSource.imported⟩ : ChatNode))]
        ++ ["node-1-aaaa"] ∧
      (∀ newId₂, lookupA m newId₂ = none →
        ∃ m₂, createBranchNode newId₂ "p" m = Except.ok (m₂, newId₂) ∧
          newId₂ ≠ "node-1-aaaa" ∧
          lookupA m₂ "p" =
            some ⟨"p", "hi", "yo", none, ["node-1-aaaa", newId₂], NodeSource.imported⟩ ∧
          keysA m₂ =
            keysA [("p", (⟨"p", "hi", "yo", none, [], NodeSource.imported⟩ : ChatNode))]
              ++ ["node-1-aaaa", newId₂])) :=
  ⟨rfl, rfl,
    C3_createBranchNode_shape "node-1-aaaa" "p"
      [("p", ⟨"p", "hi", "yo", none, [], NodeSource.imported⟩)]
      ⟨"p", "hi", "yo", none, [], NodeSource.imported⟩ rfl rfl⟩

/-- A concrete one-node state used to exercise the reducer. -/
def demoState : AppState :=
  ⟨some ⟨⟨"t", ⟨"u", "e"⟩, ⟨"c", "u", "x"⟩⟩,
        [("node-0", ⟨"node-0", "p", "r", none, [], NodeSource.imported⟩)], "node-0"⟩,
    some "node-0", ViewMode.tree,
    ⟨ApiProvider.gemini, "", "google/gemini-2.5-pro"⟩⟩

/-- **C6, counterexample.** The claim says every transition is total and that
a node id absent from the current tree degrades to a no-op.  In fact
`BRANCH_FROM_NODE` with an id that is not a key passes it straight to
`createBranchNode`, which throws (`updated[parentId].childIds` on
`undefined`); the reducer does not catch it, so the transition raises
instead of no-opping. -/
theorem C6_branch_unknown_id_raises :
    reducer demoState (Action.branchFromNode "ghost" "node-1700000000000-q1w2") =
      Except.error BranchError.parentNotFound ∧
    Except.error BranchError.parentNotFound ≠ Except.ok demoState := by
  constructor
  · rfl
  · intro h; exact Except.noConfusion h

/-- **C6, amended.** Every reducer transition is total and returns a state,
with invalid inputs degrading to no-ops — except `BRANCH_FROM_NODE` with a
node id absent from the current tree, which raises the uncaught
`createBranchNode` error.  In detail: any action other than
`BRANCH_FROM_NODE` always yields a state; `BRANCH_FROM_NODE` yields a state
whenever there is no current tree (no-op) or the node id is a key of the
current tree; `UPDATE_NODE` with no current tree or an unknown node id is a
no-op (the state is returned unchanged), and so is `BRANCH_FROM_NODE` with
no current tree. -/
theorem C6_transitions_total_amended :
    (∀ s nid fid, s.tree = none →
      reducer s (Action.branchFromNode nid fid) = Except.ok s) ∧
    (∀ s nid p, s.tree = none →
      reducer s (Action.updateNode nid p) = Except.ok s) ∧
    (∀ s t nid p, s.tree = some t → lookupA t.nodes nid = none →
      reducer s (Action.updateNode nid p) = Except.ok s) ∧
    (∀ s a, (∀ nid fid, a ≠ Action.branchFromNode nid fid) →
      ∃ s', reducer s a = Except.ok s') ∧
    (∀ s t nid fid, s.tree = some t → (lookupA t.nodes nid).isSome →
      ∃ s', reducer s (Action.branchFromNode nid fid) = Except.ok s') := by
  refine ⟨?_, ?_, ?_, ?_, ?_⟩
  · intro s nid fid h
    simp [reducer, h]
  · intro s nid p h
    simp [reducer, h]
  · intro s t nid p ht hn
    simp [reducer, ht, hn]
  · intro s a hne
    cases a with
    | importTree t => exact ⟨_, rfl⟩
    | selectNode o => exact ⟨_, rfl⟩
    | setView v => exact ⟨_, rfl⟩
    | updateSettings p => exact ⟨_, rfl⟩
    | branchFromNode nid fid => exact absurd rfl (hne nid fid)
    | updateNode nid p =>
        cases ht : s.tree with
        | none => exact ⟨s, by simp [reducer, ht]⟩
        | some t =>
            cases hn : lookupA t.nodes nid with
            | none => exact ⟨s, by simp [reducer, ht, hn]⟩
            | some nd =>
                refine ⟨{ s with tree := some { t with nodes := setEntry t.nodes nid (mergeNode nd p) } }, ?_⟩
                simp [reducer, ht, hn]
    | initSettings l => exact ⟨_, rfl⟩
  · intro s t nid fid ht hn
    have hok : ∃ r, createBranchNode fid nid t.nodes = Except.ok r := by
      simp only [createBranchNode]
      by_cases hfe : fid = nid
      · subst hfe
        rw [lookupA_setEntry_self]
        exact ⟨_, rfl⟩
      · rw [lookupA_setEntry_ne _ (Ne.symm hfe)]
        obtain ⟨nd, hnd⟩ := Option.isSome_iff_exists.mp hn
        rw [hnd]
        exact ⟨_, rfl⟩
    obtain ⟨⟨m, newId⟩, hr⟩ := hok
    refine ⟨{ s with tree := some { t with nodes := m }, selectedNodeId := some newId, activeView := ViewMode.path }, ?_⟩
    simp [reducer, ht, hr]

/-- Witness for the amended C6 at concrete no-op inputs. -/
theorem C6_amended_witness :
    demoState.tree = some ⟨⟨"t", ⟨"u", "e"⟩, ⟨"c", "u", "x"⟩⟩,
        [("node-0", ⟨"node-0", "p", "r", none, [], NodeSource.imported⟩)], "node-0"⟩ ∧
    lookupA [("node-0", (⟨"node-0", "p", "r", none, [], NodeSource.imported⟩ : ChatNode))]
      "ghost" = none ∧
    reducer demoState (Action.updateNode "ghost" ⟨none, none, none, none, none, none⟩) =
      Except.ok demoState :=
  ⟨rfl, rfl,
    C6_transitions_total_amended.2.2.1 demoState
      ⟨⟨"t", ⟨"u", "e"⟩, ⟨"c", "u", "x"⟩⟩,
        [("node-0", ⟨"node-0", "p", "r", none, [], NodeSource.imported⟩)], "node-0"⟩
      "ghost" ⟨none, none, none, none, none, none⟩ rfl rfl⟩

/-!
### The linear chain built by the import parser
-/

/-- The node the import loop builds for index `i` out of `n` pairs. -/
def chainEntry (pairs : List (String × String)) (n i : Nat) : ChatNode :=
  ⟨nodeId i, ((pairs[i]?).getD ("", "")).1, ((pairs[i]?).getD ("", "")).2,
   if i = 0 then none else some (nodeId (i - 1)),
   if i + 1 < n then [nodeId (i + 1)] else [], NodeSource.imported⟩

/-- The node mapping after the first `k` iterations of the chain-building
loop (the `k`-th node, when it exists, has no child yet). -/
def chainUpTo (pairs : List (String × String)) (k : Nat) : NodeMap :=
  (List.range k).map (fun i => (nodeId i, chainEntry pairs k i))

theorem keysA_range_map {α : Type} (f : Nat → α) (k : Nat) :
    keysA ((List.range k).map (fun j => (nodeId j, f j))) = (List.range k).map nodeId := by
  simp [keysA, List.map_map]

theorem nodeId_not_mem_range {k j : Nat} (h : k ≤ j) :
    nodeId j ∉ (List.range k).map nodeId := by
  intro hmem
  obtain ⟨i, hi, hij⟩ := List.mem_map.mp hmem
  have := nodeId_inj hij
  rw [List.mem_range] at hi
  omega

theorem lookupA_range_map {α : Type} (f : Nat → α) :
    ∀ k i, i < k →
      lookupA ((List.range k).map (fun j => (nodeId j, f j))) (nodeId i) = some (f i) := by
  intro k
  induction k with
  | zero => intro i hi; omega
  | succ k ih =>
      intro i hi
      rw [List.range_succ, List.map_append]
      by_cases hik : i < k
      · exact lookupA_append_left (ih i hik) _
      · have hik' : i = k := by omega
        subst hik'
        have hnone : lookupA ((List.range i).map (fun j => (nodeId j, f j))) (nodeId i) = none := by
          rw [lookupA_eq_none_iff, keysA_range_map]
          exact nodeId_not_mem_range le_rfl
        rw [lookupA_append_right hnone]
        simp [lookupA]

@[simp] theorem keysA_chainUpTo (pairs : List (String × String)) (k : Nat) :
    keysA (chainUpTo pairs k) = (List.range k).map nodeId :=
  keysA_range_map _ k

theorem lookupA_chainUpTo (pairs : List (String × String)) {k i : Nat} (h : i < k) :
    lookupA (chainUpTo pairs k) (nodeId i) = some (chainEntry pairs k i) :=
  lookupA_range_map _ k i h

@[simp] theorem length_chainUpTo (pairs : List (String × String)) (k : Nat) :
    (chainUpTo pairs k).length = k := by
  simp [chainUpTo]

theorem chainEntry_congr (pairs : List (String × String)) {n n' i : Nat}
    (h : i + 1 < n ↔ i + 1 < n') :
    chainEntry pairs n i = chainEntry pairs n' i := by
  unfold chainEntry
  by_cases hlt : i + 1 < n
  · rw [if_pos hlt, if_pos (h.mp hlt)]
  · rw [if_neg hlt, if_neg (fun hc => hlt (h.mpr hc))]


theorem chainEntry_patch (full : List (String × String)) (j : Nat) :
    { chainEntry full (j + 1) j with
        childIds := (chainEntry full (j + 1) j).childIds ++ [nodeId (j + 1)] } =
      chainEntry full (j + 1 + 1) j := by
  unfold chainEntry
  simp [Nat.lt_irrefl, Nat.lt_succ_self]

theorem chainUpTo_succ_succ (full : List (String × String)) (pair : String × String)
    (j : Nat) (hpair : full[j + 1]? = some pair) :
    chainUpTo full (j + 1 + 1) =
      (List.range j).map (fun i => (nodeId i, chainEntry full (j + 1) i)) ++
        (nodeId j, chainEntry full (j + 1 + 1) j) ::
          [(nodeId (j + 1),
            ⟨nodeId (j + 1), pair.1, pair.2, some (nodeId j), [], NodeSource.imported⟩)] := by
  have hlast : chainEntry full (j + 1 + 1) (j + 1) =
      ⟨nodeId (j + 1), pair.1, pair.2, some (nodeId j), [], NodeSource.imported⟩ := by
    unfold chainEntry
    simp [hpair]
  have hcongr : (List.range j).map (fun i => (nodeId i, chainEntry full (j + 1 + 1) i)) =
      (List.range j).map (fun i => (nodeId i, chainEntry full (j + 1) i)) := by
    apply List.map_congr_left
    intro i hi
    rw [List.mem_range] at hi
    rw [@chainEntry_congr full (j + 1 + 1) (j + 1) i (iff_of_true (by omega) (by omega))]
  unfold chainUpTo
  rw [List.range_succ, List.map_append, List.range_succ, List.map_append, hcongr]
  simp [hlast]

/-- One iteration of the chain-building loop at index `j + 1` extends the
partial chain by one node. -/
theorem buildChainAux_cons_step (full : List (String × String)) (pair : String × String)
    (rest : List (String × String)) (j : Nat) (hpair : full[j + 1]? = some pair) :
    buildChainAux (pair :: rest) (j + 1) (some (nodeId j)) (nodeId 0) (chainUpTo full (j + 1)) =
      buildChainAux rest (j + 1 + 1) (some (nodeId (j + 1))) (nodeId 0)
        (chainUpTo full (j + 1 + 1)) := by
  have hj1 : ¬(j + 1 = 0) := by omega
  have hfreshk : nodeId (j + 1) ∉ keysA (chainUpTo full (j + 1)) := by
    rw [keysA_chainUpTo]
    exact nodeId_not_mem_range (by omega)
  have hset1 : setEntry (chainUpTo full (j + 1)) (nodeId (j + 1))
        ⟨nodeId (j + 1), pair.1, pair.2, some (nodeId j), [], NodeSource.imported⟩ =
      chainUpTo full (j + 1) ++
        [(nodeId (j + 1),
          ⟨nodeId (j + 1), pair.1, pair.2, some (nodeId j), [], NodeSource.imported⟩)] :=
    setEntry_of_not_mem hfreshk _
  have hlook : lookupA (chainUpTo full (j + 1) ++
        [(nodeId (j + 1),
          ⟨nodeId (j + 1), pair.1, pair.2, some (nodeId j), [], NodeSource.imported⟩)])
        (nodeId j) = some (chainEntry full (j + 1) j) :=
    lookupA_append_left (lookupA_chainUpTo full (by omega)) _
  have hsplit : chainUpTo full (j + 1) ++
        [(nodeId (j + 1),
          ⟨nodeId (j + 1), pair.1, pair.2, some (nodeId j), [], NodeSource.imported⟩)] =
      (List.range j).map (fun i => (nodeId i, chainEntry full (j + 1) i)) ++
        (nodeId j, chainEntry full (j + 1) j) ::
          [(nodeId (j + 1),
            ⟨nodeId (j + 1), pair.1, pair.2, some (nodeId j), [], NodeSource.imported⟩)] := by
    unfold chainUpTo
    rw [List.range_succ, List.map_append]
    simp
  have hfreshj : nodeId j ∉
      keysA ((List.range j).map (fun i => (nodeId i, chainEntry full (j + 1) i))) := by
    rw [keysA_range_map]
    exact nodeId_not_mem_range le_rfl
  simp only [buildChainAux, hset1, if_neg hj1, hlook]
  rw [hsplit, setEntry_mid hfreshj, chainEntry_patch,
    ← chainUpTo_succ_succ full pair j hpair]

/-- The first iteration of the chain-building loop. -/
theorem buildChainAux_first_step (pair : String × String) (rest : List (String × String)) :
    buildChainAux (pair :: rest) 0 none "" [] =
      buildChainAux rest 1 (some (nodeId 0)) (nodeId 0) (chainUpTo (pair :: rest) 1) := by
  simp only [buildChainAux, setEntry, if_pos rfl]
  congr 1
  unfold chainUpTo chainEntry
  simp [List.range_succ]

theorem buildChainAux_chain (full : List (String × String)) :
    ∀ (rest : List (String × String)) (j : Nat), full.drop (j + 1) = rest →
      j + 1 ≤ full.length →
      buildChainAux rest (j + 1) (some (nodeId j)) (nodeId 0) (chainUpTo full (j + 1)) =
        (chainUpTo full full.length, nodeId 0) := by
  intro rest
  induction rest with
  | nil =>
      intro j hdrop hle
      have hge : full.length ≤ j + 1 := by
        have := congrArg List.length hdrop
        simp at this
        omega
      have hkeq : j + 1 = full.length := by omega
      rw [← hkeq]
      rfl
  | cons pair rest ih =>
      intro j hdrop hle
      have hlen : full.length = j + 1 + (rest.length + 1) := by
        have := congrArg List.length hdrop
        simp at this
        omega
      have hpair : full[j + 1]? = some pair := by
        have h0 : (full.drop (j + 1)).head? = some pair := by rw [hdrop]; rfl
        rwa [List.head?_drop] at h0
      have hdrop2 : full.drop (j + 1 + 1) = rest := by
        have h0 : (full.drop (j + 1)).tail = rest := by rw [hdrop]; rfl
        rwa [List.tail_drop] at h0
      rw [buildChainAux_cons_step full pair rest j hpair]
      exact ih (j + 1) hdrop2 (by omega)

/-- The chain-building loop of `parseImportedJson`, run from the start on a
nonempty pair list, produces exactly the linear chain. -/
theorem buildChain_eq (pairs : List (String × String)) (h : pairs ≠ []) :
    buildChainAux pairs 0 none "" [] = (chainUpTo pairs pairs.length, nodeId 0) := by
  obtain ⟨pair, rest, rfl⟩ := List.exists_cons_of_ne_nil h
  rw [buildChainAux_first_step pair rest]
  exact buildChainAux_chain (pair :: rest) rest 0 rfl (by simp)

theorem chainUpTo_walk (pairs : List (String × String)) (n : Nat) :
    ∀ i, i < n → ∀ (fuel : Nat) (acc : List String), i + 1 ≤ fuel →
      getPathToRootFuel (chainUpTo pairs n) fuel (some (nodeId i)) acc =
        some ((List.range (i + 1)).map nodeId ++ acc) := by
  intro i
  induction i with
  | zero =>
      intro h0 fuel acc hfuel
      obtain ⟨f, rfl⟩ : ∃ f, fuel = f + 1 := ⟨fuel - 1, by omega⟩
      simp only [getPathToRootFuel, if_neg (nodeId_ne_empty 0)]
      rw [lookupA_chainUpTo pairs h0]
      simp [chainEntry, getPathToRootFuel, List.range_succ]
  | succ i ih =>
      intro hn fuel acc hfuel
      obtain ⟨f, rfl⟩ : ∃ f, fuel = f + 1 := ⟨fuel - 1, by omega⟩
      simp only [getPathToRootFuel, if_neg (nodeId_ne_empty (i + 1))]
      rw [lookupA_chainUpTo pairs hn]
      have hpar : (chainEntry pairs n (i + 1)).parentId = some (nodeId i) := by
        simp [chainEntry]
      simp only [hpar]
      rw [ih (by omega) f (nodeId (i + 1) :: acc) (by omega)]
      simp [List.range_succ]

/-- **C1.** For valid import JSON whose messages yield `n ≥ 1` pairs,
`parseImportedJson` returns a tree with exactly the keys
`node-0 … node-(n-1)` (deterministically derived from position), `node-0`
the root with no parent, node `i`'s parent `node-(i-1)`, each non-terminal
node's `childIds` exactly its one linear successor, the last node childless,
and `getPathToRoot` on the last node returns all `n` ids in creation
order. -/
theorem C1_parse_import_linear_chain (md : RawMetadata) (msgs : List ExportedMessage)
    (n : Nat) (hn : n = (pairScan msgs).length) (hpos : 1 ≤ n) :
    ∃ tree, parseImportedJson ⟨some md, some msgs⟩ = Except.ok tree ∧
      tree.rootId = nodeId 0 ∧
      keysA tree.nodes = (List.range n).map nodeId ∧
      (∀ i, i < n →
        lookupA tree.nodes (nodeId i) =
          some ⟨nodeId i, (((pairScan msgs)[i]?).getD ("", "")).1,
                (((pairScan msgs)[i]?).getD ("", "")).2,
                if i = 0 then none else some (nodeId (i - 1)),
                if i + 1 < n then [nodeId (i + 1)] else [],
                NodeSource.imported⟩) ∧
      getPathToRoot (nodeId (n - 1)) tree.nodes = some ((List.range n).map nodeId) := by
  have hne : pairScan msgs ≠ [] := by
    intro h
    rw [h] at hn
    simp at hn
    omega
  have hlen0 : ¬((pairScan msgs).length = 0) := by omega
  have hparse : parseImportedJson ⟨some md, some msgs⟩ =
      Except.ok ⟨defaultedMetadata md, chainUpTo (pairScan msgs) n, nodeId 0⟩ := by
    simp only [parseImportedJson]
    rw [if_neg hlen0, buildChain_eq _ hne, ← hn]
  refine ⟨_, hparse, rfl, ?_, ?_, ?_⟩
  · exact keysA_chainUpTo _ n
  · intro i hi
    rw [lookupA_chainUpTo _ hi]
    rfl
  · obtain ⟨m, rfl⟩ : ∃ m, n = m + 1 := ⟨n - 1, by omega⟩
    unfold getPathToRoot
    rw [length_chainUpTo]
    have hw := chainUpTo_walk (pairScan msgs) (m + 1) m (by omega) (m + 1 + 1) [] (by omega)
    simpa using hw

/-- Witness for C1 on the spec's own two-message example. -/
theorem C1_parse_witness :
    1 = (pairScan [⟨MsgRole.prompt, "hi"⟩, ⟨MsgRole.response, "hello"⟩]).length ∧
    1 ≤ 1 ∧
    (∃ tree, parseImportedJson ⟨some ⟨some "T", none, none⟩,
        some [⟨MsgRole.prompt, "hi"⟩, ⟨MsgRole.response, "hello"⟩]⟩ = Except.ok tree ∧
      tree.rootId = nodeId 0 ∧
      keysA tree.nodes = (List.range 1).map nodeId ∧
      (∀ i, i < 1 →
        lookupA tree.nodes (nodeId i) =
          some ⟨nodeId i,
                (((pairScan [⟨MsgRole.prompt, "hi"⟩, ⟨MsgRole.response, "hello"⟩])[i]?).getD
                  ("", "")).1,
                (((pairScan [⟨MsgRole.prompt, "hi"⟩, ⟨MsgRole.response, "hello"⟩])[i]?).getD
                  ("", "")).2,
                if i = 0 then none else some (nodeId (i - 1)),
                if i + 1 < 1 then [nodeId (i + 1)] else [],
                NodeSource.imported⟩) ∧
      getPathToRoot (nodeId (1 - 1)) tree.nodes = some ((List.range 1).map nodeId)) :=
  ⟨by simp [pairScan_eq_pairMessages, pairMessages], le_rfl,
    C1_parse_import_linear_chain ⟨some "T", none, none⟩
      [⟨MsgRole.prompt, "hi"⟩, ⟨MsgRole.response, "hello"⟩] 1
      (by simp [pairScan_eq_pairMessages, pairMessages]) le_rfl⟩

/-!
### The structural tree invariant (spec §3)
-/

/-- The parent link of an id, as the walkers read it. -/
def parentOf (nodes : NodeMap) (id : String) : Option String :=
  match lookupA nodes id with
  | some nd => nd.parentId
  | none => none

/-- `stepsToRoot nodes rootId fuel id` holds when the parent chain from `id`
reaches `rootId` within `fuel` steps. -/
def stepsToRoot (nodes : NodeMap) (rootId : String) : Nat → String → Bool
  | 0, id => id == rootId
  | fuel + 1, id =>
      if id = rootId then true
      else
        match parentOf nodes id with
        | some p => stepsToRoot nodes rootId fuel p
        | none => false

/-- The spec's structural tree invariant: exactly one node (the root) has no
parent; every other node's `parentId` references an existing node whose
`childIds` contains the node's id; and the parent chain from any node
reaches the root within total-node-count steps. -/
def treeInvariant (rootId : String) (nodes : NodeMap) : Prop :=
  (lookupA nodes rootId).isSome ∧
  (∀ id nd, lookupA nodes id = some nd → (nd.parentId = none ↔ id = rootId)) ∧
  (∀ id nd p, lookupA nodes id = some nd → nd.parentId = some p →
    ∃ pn, lookupA nodes p = some pn ∧ id ∈ pn.childIds) ∧
  (∀ id, (lookupA nodes id).isSome →
    stepsToRoot nodes rootId nodes.length id = true)

theorem parentOf_some_isSome {nodes : NodeMap} {x p : String}
    (h : parentOf nodes x = some p) : (lookupA nodes x).isSome := by
  unfold parentOf at h
  cases hl : lookupA nodes x with
  | none => rw [hl] at h; exact Option.noConfusion h
  | some nd => rfl

theorem stepsToRoot_mono (nodes : NodeMap) (rootId : String) :
    ∀ fuel fuel' id, fuel ≤ fuel' →
      stepsToRoot nodes rootId fuel id = true →
      stepsToRoot nodes rootId fuel' id = true := by
  intro fuel
  induction fuel with
  | zero =>
      intro fuel' id hle h
      have hid : id = rootId := by
        simpa [stepsToRoot] using h
      cases fuel' with
      | zero => simp [stepsToRoot, hid]
      | succ f => simp [stepsToRoot, hid]
  | succ fuel ih =>
      intro fuel' id hle h
      obtain ⟨f, rfl⟩ : ∃ f, fuel' = f + 1 := ⟨fuel' - 1, by omega⟩
      rw [stepsToRoot] at h ⊢
      by_cases hid : id = rootId
      · simp [hid]
      · rw [if_neg hid] at h ⊢
        cases hp : parentOf nodes id with
        | none => rw [hp] at h; exact absurd h (by simp)
        | some p =>
            rw [hp] at h
            exact ih f p (by omega) h

theorem stepsToRoot_congr {m m' : NodeMap} {rootId : String}
    (h : ∀ x, (lookupA m x).isSome → parentOf m' x = parentOf m x) :
    ∀ fuel id, stepsToRoot m rootId fuel id = true →
      stepsToRoot m' rootId fuel id = true := by
  intro fuel
  induction fuel with
  | zero => intro id hh; simpa [stepsToRoot] using hh
  | succ fuel ih =>
      intro id hh
      rw [stepsToRoot] at hh ⊢
      by_cases hid : id = rootId
      · simp [hid]
      · rw [if_neg hid] at hh ⊢
        cases hp : parentOf m id with
        | none => rw [hp] at hh; exact absurd hh (by simp)
        | some p =>
            rw [hp] at hh
            rw [h id (parentOf_some_isSome hp), hp]
            exact ih p hh

theorem lookupA_range_map_inv {α : Type} (f : Nat → α) :
    ∀ k id nd, lookupA ((List.range k).map (fun j => (nodeId j, f j))) id = some nd →
      ∃ i, i < k ∧ id = nodeId i ∧ nd = f i := by
  intro k
  induction k with
  | zero => intro id nd h; simp at h
  | succ k ih =>
      intro id nd h
      rw [List.range_succ, List.map_append, lookupA_append] at h
      cases hl : lookupA ((List.range k).map (fun j => (nodeId j, f j))) id with
      | some v =>
          rw [hl] at h
          simp only [Option.some.injEq] at h
          obtain ⟨i, hi, hid, hnd⟩ := ih id v hl
          exact ⟨i, by omega, hid, by rw [← h]; exact hnd⟩
      | none =>
          rw [hl] at h
          simp only [List.map_cons, List.map_nil, lookupA_cons] at h
          by_cases hk : nodeId k = id
          · rw [if_pos hk] at h
            exact ⟨k, by omega, hk.symm, by injection h with h'; exact h'.symm⟩
          · rw [if_neg hk] at h
            simp at h

theorem chain_stepsToRoot (pairs : List (String × String)) (n : Nat) :
    ∀ i, i < n → ∀ fuel, i ≤ fuel →
      stepsToRoot (chainUpTo pairs n) (nodeId 0) fuel (nodeId i) = true := by
  intro i
  induction i with
  | zero =>
      intro h0 fuel hfuel
      cases fuel with
      | zero => simp [stepsToRoot]
      | succ f => simp [stepsToRoot]
  | succ i ih =>
      intro hn fuel hfuel
      obtain ⟨f, rfl⟩ : ∃ f, fuel = f + 1 := ⟨fuel - 1, by omega⟩
      rw [stepsToRoot, if_neg (fun hc => by exact absurd (nodeId_inj hc) (by omega))]
      have hpar : parentOf (chainUpTo pairs n) (nodeId (i + 1)) = some (nodeId i) := by
        unfold parentOf
        rw [lookupA_chainUpTo pairs hn]
        simp [chainEntry]
      rw [hpar]
      exact ih (by omega) f (by omega)

/-- The import parser's linear chain satisfies the structural invariant. -/
theorem chain_invariant (pairs : List (String × String)) (n : Nat) (hpos : 1 ≤ n) :
    treeInvariant (nodeId 0) (chainUpTo pairs n) := by
  refine ⟨?_, ?_, ?_, ?_⟩
  · rw [lookupA_chainUpTo pairs (by omega : 0 < n)]
    rfl
  · intro id nd h
    obtain ⟨i, hi, rfl, rfl⟩ := lookupA_range_map_inv _ n id nd h
    constructor
    · intro hp
      by_cases h0 : i = 0
      · rw [h0]
      · exfalso
        revert hp
        simp [chainEntry, h0]
    · intro hid
      have h0 : i = 0 := nodeId_inj hid
      simp [chainEntry, h0]
  · intro id nd p h hp
    obtain ⟨i, hi, rfl, rfl⟩ := lookupA_range_map_inv _ n id nd h
    by_cases h0 : i = 0
    · rw [h0] at hp
      simp [chainEntry] at hp
    · obtain ⟨j, rfl⟩ : ∃ j, i = j + 1 := ⟨i - 1, by omega⟩
      have hp' : p = nodeId j := by
        simp [chainEntry] at hp
        exact hp.symm
      subst hp'
      refine ⟨chainEntry pairs n j, lookupA_chainUpTo pairs (by omega), ?_⟩
      simp [chainEntry, (by omega : j + 1 < n)]
  · intro id h
    rw [lookupA_isSome_iff, keysA_chainUpTo] at h
    obtain ⟨i, hmem, rfl⟩ := List.mem_map.mp h
    rw [List.mem_range] at hmem
    rw [length_chainUpTo]
    exact chain_stepsToRoot pairs n i hmem n (by omega)

@[simp] theorem keysA_length {α : Type} (m : List (String × α)) :
    (keysA m).length = m.length := by
  simp [keysA]

/-- Successful `createBranchNode` spelled out (parent present, fresh id). -/
theorem createBranchNode_ok_eq (newId parentId : String) (nodes : NodeMap) (pn : ChatNode)
    (hfresh : lookupA nodes newId = none) (hparent : lookupA nodes parentId = some pn) :
    createBranchNode newId parentId nodes =
      Except.ok (setEntry (setEntry nodes newId
          ⟨newId, "", "", some parentId, [], NodeSource.generated⟩) parentId
        { pn with childIds := pn.childIds ++ [newId] }, newId) := by
  have hne : newId ≠ parentId := by
    intro h
    rw [h, hparent] at hfresh
    exact Option.noConfusion hfresh
  have hupd : lookupA (setEntry nodes newId
      ⟨newId, "", "", some parentId, [], NodeSource.generated⟩) parentId = some pn := by
    rw [lookupA_setEntry_ne nodes (Ne.symm hne), hparent]
  simp only [createBranchNode]
  rw [hupd]

/-- `createBranchNode` with an existing parent and a fresh id preserves the
structural invariant. -/
theorem branch_preserves_invariant (rootId newId parentId : String) (nodes : NodeMap)
    (pn : ChatNode) (m : NodeMap) (nid : String)
    (hinv : treeInvariant rootId nodes)
    (hfresh : lookupA nodes newId = none)
    (hparent : lookupA nodes parentId = some pn)
    (hok : createBranchNode newId parentId nodes = Except.ok (m, nid)) :
    treeInvariant rootId m := by
  obtain ⟨hroot, hponly, hbidir, hsteps⟩ := hinv
  have hne : newId ≠ parentId := by
    intro h
    rw [h, hparent] at hfresh
    exact Option.noConfusion hfresh
  rw [createBranchNode_ok_eq newId parentId nodes pn hfresh hparent] at hok
  simp only [Except.ok.injEq, Prod.mk.injEq] at hok
  obtain ⟨hm, hnid⟩ := hok
  set newNode : ChatNode := ⟨newId, "", "", some parentId, [], NodeSource.generated⟩ with hnn
  set patched : ChatNode := { pn with childIds := pn.childIds ++ [newId] } with hpt
  have hmnew : lookupA m newId = some newNode := by
    rw [← hm, lookupA_setEntry_ne _ hne, lookupA_setEntry_self]
  have hmpar : lookupA m parentId = some patched := by
    rw [← hm, lookupA_setEntry_self]
  have hother : ∀ k, k ≠ newId → k ≠ parentId → lookupA m k = lookupA nodes k := by
    intro k hk1 hk2
    rw [← hm, lookupA_setEntry_ne _ hk2, lookupA_setEntry_ne _ hk1]
  have hrootne : rootId ≠ newId := by
    intro h
    rw [← h] at hfresh
    rw [hfresh] at hroot
    exact Bool.noConfusion hroot
  have hlen : m.length = nodes.length + 1 := by
    have h1 : keysA (setEntry nodes newId newNode) = keysA nodes ++ [newId] :=
      keysA_setEntry_of_not_mem ((lookupA_eq_none_iff nodes newId).mp hfresh) _
    have hmem : parentId ∈ keysA (setEntry nodes newId newNode) := by
      rw [← lookupA_isSome_iff, lookupA_setEntry_ne nodes (Ne.symm hne), hparent]
      rfl
    rw [← keysA_length m, ← hm, keysA_setEntry_of_mem hmem, h1]
    simp
  have hparagree : ∀ x, (lookupA nodes x).isSome → parentOf m x = parentOf nodes x := by
    intro x hx
    have hxne : x ≠ newId := by
      intro h
      rw [h, hfresh] at hx
      exact Bool.noConfusion hx
    by_cases hxp : x = parentId
    · subst hxp
      unfold parentOf
      rw [hmpar, hparent]
    · unfold parentOf
      rw [hother x hxne hxp]
  have hlift : ∀ q qn x, lookupA nodes q = some qn → x ∈ qn.childIds →
      ∃ qn', lookupA m q = some qn' ∧ x ∈ qn'.childIds := by
    intro q qn x hq hx
    have hqne : q ≠ newId := by
      intro hc
      rw [hc, hfresh] at hq
      exact Option.noConfusion hq
    by_cases hqp : q = parentId
    · subst hqp
      rw [hparent] at hq
      injection hq with hq
      subst hq
      exact ⟨patched, hmpar, by rw [hpt]; simp [hx]⟩
    · exact ⟨qn, by rw [hother q hqne hqp]; exact hq, hx⟩
  refine ⟨?_, ?_, ?_, ?_⟩
  · by_cases hrp : rootId = parentId
    · rw [hrp, hmpar]
      rfl
    · rw [hother rootId hrootne hrp]
      exact hroot
  · intro id nd hnd
    by_cases hidn : id = newId
    · rw [hidn] at hnd ⊢
      rw [hmnew] at hnd
      injection hnd with hnd
      subst hnd
      constructor
      · intro h
        exact Option.noConfusion h
      · intro h
        exact absurd h.symm hrootne
    · by_cases hidp : id = parentId
      · rw [hidp] at hnd ⊢
        rw [hmpar] at hnd
        injection hnd with hnd
        subst hnd
        have h2 := hponly parentId pn hparent
        simpa [hpt] using h2
      · rw [hother id hidn hidp] at hnd
        exact hponly id nd hnd
  · intro id nd p hnd hp
    by_cases hidn : id = newId
    · rw [hidn] at hnd ⊢
      rw [hmnew] at hnd
      injection hnd with hnd
      subst hnd
      have hpp : p = parentId := by
        rw [hnn] at hp
        simp at hp
        exact hp.symm
      rw [hpp]
      exact ⟨patched, hmpar, by rw [hpt]; simp⟩
    · by_cases hidp : id = parentId
      · rw [hidp] at hnd ⊢
        rw [hmpar] at hnd
        injection hnd with hnd
        subst hnd
        have hpar2 : pn.parentId = some p := by
          rw [hpt] at hp
          simpa using hp
        obtain ⟨qn, hqn, hmem⟩ := hbidir parentId pn p hparent hpar2
        exact hlift p qn parentId hqn hmem
      · rw [hother id hidn hidp] at hnd
        obtain ⟨qn, hqn, hmem⟩ := hbidir id nd p hnd hp
        exact hlift p qn id hqn hmem
  · intro id hid
    rw [hlen]
    by_cases hidn : id = newId
    · rw [hidn]
      rw [stepsToRoot, if_neg (fun hc => hrootne hc.symm)]
      have hpar : parentOf m newId = some parentId := by
        unfold parentOf
        rw [hmnew]
      rw [hpar]
      have hold : stepsToRoot nodes rootId nodes.length parentId = true :=
        hsteps parentId (by rw [hparent]; rfl)
      exact stepsToRoot_congr hparagree nodes.length parentId hold
    · have hids : (lookupA nodes id).isSome := by
        by_cases hidp : id = parentId
        · rw [hidp, hparent]
          rfl
        · rw [← hother id hidn hidp]
          exact hid
      have hold := hsteps id hids
      have hcg := stepsToRoot_congr hparagree nodes.length id hold
      exact stepsToRoot_mono m rootId nodes.length (nodes.length + 1) id (by omega) hcg

/-- `UPDATE_NODE` with a patch touching only `prompt`/`response` preserves
the structural invariant. -/
theorem update_preserves_invariant (rootId nid : String) (nodes : NodeMap) (nd : ChatNode)
    (p : NodePatch)
    (hinv : treeInvariant rootId nodes)
    (hnd : lookupA nodes nid = some nd)
    (hpi : p.id = none) (hpp : p.parentId = none) (hpc : p.childIds = none)
    (hps : p.source = none) :
    treeInvariant rootId (setEntry nodes nid (mergeNode nd p)) := by
  obtain ⟨hroot, hponly, hbidir, hsteps⟩ := hinv
  set merged : ChatNode := mergeNode nd p with hmg
  have hmpar : merged.parentId = nd.parentId := by
    rw [hmg]
    simp [mergeNode, hpp]
  have hmc : merged.childIds = nd.childIds := by
    rw [hmg]
    simp [mergeNode, hpc]
  set m : NodeMap := setEntry nodes nid merged with hm
  have hself : lookupA m nid = some merged := lookupA_setEntry_self _ _ _
  have hother : ∀ k, k ≠ nid → lookupA m k = lookupA nodes k := by
    intro k hk
    rw [hm, lookupA_setEntry_ne _ hk]
  have hlen : m.length = nodes.length := by
    rw [← keysA_length m, hm,
      keysA_setEntry_of_mem (by rw [← lookupA_isSome_iff, hnd]; rfl) merged]
    simp
  have hparagree : ∀ x, (lookupA nodes x).isSome → parentOf m x = parentOf nodes x := by
    intro x hx
    by_cases hxn : x = nid
    · subst hxn
      unfold parentOf
      rw [hself, hnd]
      exact hmpar
    · unfold parentOf
      rw [hother x hxn]
  have hlift : ∀ q qn x, lookupA nodes q = some qn → x ∈ qn.childIds →
      ∃ qn', lookupA m q = some qn' ∧ x ∈ qn'.childIds := by
    intro q qn x hq hx
    by_cases hqn' : q = nid
    · subst hqn'
      rw [hnd] at hq
      injection hq with hq
      subst hq
      exact ⟨merged, hself, by rw [hmc]; exact hx⟩
    · exact ⟨qn, by rw [hother q hqn']; exact hq, hx⟩
  refine ⟨?_, ?_, ?_, ?_⟩
  · by_cases hrn : rootId = nid
    · rw [hrn, hself]
      rfl
    · rw [hother rootId hrn]
      exact hroot
  · intro id nd' hnd'
    by_cases hidn : id = nid
    · subst hidn
      rw [hself] at hnd'
      injection hnd' with hnd'
      subst hnd'
      rw [hmpar]
      exact hponly id nd hnd
    · rw [hother id hidn] at hnd'
      exact hponly id nd' hnd'
  · intro id nd' q hnd' hq
    by_cases hidn : id = nid
    · subst hidn
      rw [hself] at hnd'
      injection hnd' with hnd'
      subst hnd'
      rw [hmpar] at hq
      obtain ⟨qn, hqn, hmem⟩ := hbidir id nd q hnd hq
      exact hlift q qn id hqn hmem
    · rw [hother id hidn] at hnd'
      obtain ⟨qn, hqn, hmem⟩ := hbidir id nd' q hnd' hq
      exact hlift q qn id hqn hmem
  · intro id hid
    rw [hlen]
    have hids : (lookupA nodes id).isSome := by
      by_cases hidn : id = nid
      · rw [hidn, hnd]
        rfl
      · rw [← hother id hidn]
        exact hid
    exact stepsToRoot_congr hparagree nodes.length id (hsteps id hids)

/-- **C10.** The structural tree invariant — exactly one parentless node
(the root); every other node's parent exists and lists the node among its
children (bidirectional consistency); the parent chain reaches the root in
at most node-count steps — holds for every tree `parseImportedJson`
produces, is preserved by `createBranchNode` when the parent exists (and
the generated id is fresh), and is preserved by an `UPDATE_NODE` transition
whose patch touches only `prompt` and `response`. -/
theorem C10_tree_invariant_preserved :
    (∀ md msgs tree, parseImportedJson ⟨some md, some msgs⟩ = Except.ok tree →
      treeInvariant tree.rootId tree.nodes) ∧
    (∀ rootId nodes newId parentId pn m nid,
      treeInvariant rootId nodes →
      lookupA nodes newId = none →
      lookupA nodes parentId = some pn →
      createBranchNode newId parentId nodes = Except.ok (m, nid) →
      treeInvariant rootId m) ∧
    (∀ s t nid patch s' t',
      s.tree = some t → treeInvariant t.rootId t.nodes →
      patch.id = none → patch.parentId = none → patch.childIds = none →
      patch.source = none →
      reducer s (Action.updateNode nid patch) = Except.ok s' →
      s'.tree = some t' →
      treeInvariant t'.rootId t'.nodes) := by
  refine ⟨?_, ?_, ?_⟩
  · intro md msgs tree hparse
    simp only [parseImportedJson] at hparse
    by_cases hz : (pairScan msgs).length = 0
    · rw [if_pos hz] at hparse
      exact Except.noConfusion hparse
    · have hne : pairScan msgs ≠ [] := by
        intro h
        rw [h] at hz
        simp at hz
      rw [if_neg hz, buildChain_eq _ hne] at hparse
      injection hparse with hparse
      subst hparse
      exact chain_invariant _ _ (by omega)
  · intro rootId nodes newId parentId pn m nid hinv hfresh hparent hok
    exact branch_preserves_invariant rootId newId parentId nodes pn m nid hinv
      hfresh hparent hok
  · intro s t nid patch s' t' ht hinv h1 h2 h3 h4 hred ht'
    simp only [reducer, ht] at hred
    cases hl : lookupA t.nodes nid with
    | none =>
        rw [hl] at hred
        injection hred with hred
        rw [← hred] at ht'
        rw [ht] at ht'
        injection ht' with ht'
        rw [← ht']
        exact hinv
    | some nd =>
        rw [hl] at hred
        injection hred with hred
        rw [← hred] at ht'
        simp only at ht'
        injection ht' with ht'
        rw [← ht']
        exact update_preserves_invariant t.rootId nid t.nodes nd patch hinv hl h1 h2 h3 h4

/-- Witness for C10: the invariant of a concrete imported tree and of the
same tree after one branch creation. -/
theorem C10_invariant_witness :
    parseImportedJson ⟨some ⟨some "T", none, none⟩,
        some [⟨MsgRole.prompt, "hi"⟩, ⟨MsgRole.response, "hello"⟩]⟩ =
      Except.ok ⟨⟨"T", ⟨"Unknown", ""⟩, ⟨"", "", ""⟩⟩,
        [("node-0", ⟨"node-0", "hi", "hello", none, [], NodeSource.imported⟩)], "node-0"⟩ ∧
    treeInvariant "node-0"
      [("node-0", ⟨"node-0", "hi", "hello", none, [], NodeSource.imported⟩)] ∧
    treeInvariant "node-0"
      [("node-0", ⟨"node-0", "hi", "hello", none, ["node-9-zz"], NodeSource.imported⟩),
       ("node-9-zz", ⟨"node-9-zz", "", "", some "node-0", [], NodeSource.generated⟩)] := by
  have hpairs : pairScan [⟨MsgRole.prompt, "hi"⟩, ⟨MsgRole.response, "hello"⟩] =
      [("hi", "hello")] := by
    rw [pairScan_eq_pairMessages]
    rfl
  have hparse : parseImportedJson ⟨some ⟨some "T", none, none⟩,
      some [⟨MsgRole.prompt, "hi"⟩, ⟨MsgRole.response, "hello"⟩]⟩ =
      Except.ok ⟨⟨"T", ⟨"Unknown", ""⟩, ⟨"", "", ""⟩⟩,
        [("node-0", ⟨"node-0", "hi", "hello", none, [], NodeSource.imported⟩)], "node-0"⟩ := by
    simp only [parseImportedJson, hpairs]
    rfl
  have hinv0 := C10_tree_invariant_preserved.1 ⟨some "T", none, none⟩
    [⟨MsgRole.prompt, "hi"⟩, ⟨MsgRole.response, "hello"⟩] _ hparse
  have hok : createBranchNode "node-9-zz" "node-0"
      [("node-0", ⟨"node-0", "hi", "hello", none, [], NodeSource.imported⟩)] =
      Except.ok
        ([("node-0", ⟨"node-0", "hi", "hello", none, ["node-9-zz"], NodeSource.imported⟩),
          ("node-9-zz", ⟨"node-9-zz", "", "", some "node-0", [], NodeSource.generated⟩)],
         "node-9-zz") := by
    rfl
  have hinv1 := C10_tree_invariant_preserved.2.1 "node-0"
    [("node-0", ⟨"node-0", "hi", "hello", none, [], NodeSource.imported⟩)]
    "node-9-zz" "node-0" ⟨"node-0", "hi", "hello", none, [], NodeSource.imported⟩
    _ _ hinv0 rfl rfl hok
  exact ⟨hparse, hinv0, hinv1⟩

/-!
### The chat-history builder on well-formed mappings
-/

/-- The messages of the nodes along a path, in path order (spec side). -/
def pathMessages (nodes : NodeMap) : List String → List ChatMessage
  | [] => []
  | id :: rest =>
      (match lookupA nodes id with
       | some nd => nodeMessages nd
       | none => []) ++ pathMessages nodes rest

theorem buildChatHistoryAux_of_keys (nodes : NodeMap) :
    ∀ path, (∀ j ∈ path, (lookupA nodes j).isSome) →
      buildChatHistoryAux nodes path = some (pathMessages nodes path) := by
  intro path
  induction path with
  | nil => intro h; rfl
  | cons id rest ih =>
      intro h
      have hid : (lookupA nodes id).isSome := h id (List.mem_cons_self id rest)
      obtain ⟨nd, hnd⟩ := Option.isSome_iff_exists.mp hid
      rw [buildChatHistoryAux, hnd, ih (fun j hj => h j (List.mem_cons_of_mem id hj))]
      simp [pathMessages, hnd]

theorem invariant_walk (rootId : String) (nodes : NodeMap)
    (hinv : treeInvariant rootId nodes)
    (hids : ∀ x ∈ keysA nodes, x ≠ "") :
    ∀ fuel id nd acc, stepsToRoot nodes rootId fuel id = true →
      lookupA nodes id = some nd →
      ∃ path, getPathToRootFuel nodes (fuel + 1) (some id) acc = some (path ++ acc) ∧
        path ≠ [] ∧ path.head? = some rootId ∧ path.getLast? = some id ∧
        ∀ j ∈ path, (lookupA nodes j).isSome := by
  obtain ⟨hroot, hponly, hbidir, hsteps⟩ := hinv
  intro fuel
  induction fuel with
  | zero =>
      intro id nd acc hstep hnd
      have hid : id = rootId := by
        simpa [stepsToRoot] using hstep
      have hne : id ≠ "" := hids id ((lookupA_isSome_iff nodes id).mp (by rw [hnd]; rfl))
      have hpar : nd.parentId = none := (hponly id nd hnd).mpr hid
      refine ⟨[id], ?_, by simp, by simp [hid], by simp, ?_⟩
      · rw [getPathToRootFuel, if_neg hne, hnd]
        simp [hpar, getPathToRootFuel]
      · intro j hj
        rw [List.mem_singleton.mp hj, hnd]
        rfl
  | succ fuel ih =>
      intro id nd acc hstep hnd
      have hne : id ≠ "" := hids id ((lookupA_isSome_iff nodes id).mp (by rw [hnd]; rfl))
      rw [stepsToRoot] at hstep
      by_cases hid : id = rootId
      · have hpar : nd.parentId = none := (hponly id nd hnd).mpr hid
        refine ⟨[id], ?_, by simp, by simp [hid], by simp, ?_⟩
        · rw [getPathToRootFuel, if_neg hne, hnd]
          simp [hpar, getPathToRootFuel]
        · intro j hj
          rw [List.mem_singleton.mp hj, hnd]
          rfl
      · rw [if_neg hid] at hstep
        cases hp : parentOf nodes id with
        | none => rw [hp] at hstep; exact absurd hstep (by simp)
        | some p =>
            rw [hp] at hstep
            have hpar : nd.parentId = some p := by
              unfold parentOf at hp
              rw [hnd] at hp
              exact hp
            obtain ⟨pn, hpn, _⟩ := hbidir id nd p hnd hpar
            obtain ⟨path, hwalk, hne', hhead, hlast, hmem⟩ :=
              ih p pn (id :: acc) hstep hpn
            refine ⟨path ++ [id], ?_, by simp, ?_, ?_, ?_⟩
            · rw [getPathToRootFuel, if_neg hne, hnd]
              simp only [hpar]
              rw [hwalk]
              simp
            · obtain ⟨a, rest, rfl⟩ := List.exists_cons_of_ne_nil hne'
              simpa using hhead
            · simp
            · intro j hj
              rcases List.mem_append.mp hj with hj | hj
              · exact hmem j hj
              · rw [List.mem_singleton.mp hj, hnd]
                rfl

/-- **C5.** For a node id present in a well-formed mapping (structural
invariant, no empty-string ids), `buildChatHistory` succeeds and returns
exactly the non-empty prompts and responses of the nodes along the
root-path, in root-to-node order, each non-empty prompt (tagged `user`)
immediately followed by its node's non-empty response (tagged
`assistant`); in particular the spec's two-node example is returned as
`[{user,x},{assistant,y},{user,a},{assistant,b}]`. -/
theorem C5_buildChatHistory_path (rootId startId : String) (nodes : NodeMap)
    (nd : ChatNode)
    (hinv : treeInvariant rootId nodes)
    (hids : ∀ x ∈ keysA nodes, x ≠ "")
    (hnd : lookupA nodes startId = some nd) :
    (∃ path, getPathToRoot startId nodes = some path ∧
      path ≠ [] ∧ path.head? = some rootId ∧ path.getLast? = some startId ∧
      buildChatHistory startId nodes = some (pathMessages nodes path)) ∧
    buildChatHistory "node-1"
      [("node-0", ⟨"node-0", "x", "y", none, ["node-1"], NodeSource.imported⟩),
       ("node-1", ⟨"node-1", "a", "b", some "node-0", [], NodeSource.imported⟩)] =
      some [⟨ChatRole.user, "x"⟩, ⟨ChatRole.assistant, "y"⟩,
            ⟨ChatRole.user, "a"⟩, ⟨ChatRole.assistant, "b"⟩] := by
  constructor
  · have hstep := hinv.2.2.2 startId (by rw [hnd]; rfl)
    obtain ⟨path, hwalk, hne', hhead, hlast, hmem⟩ :=
      invariant_walk rootId nodes hinv hids nodes.length startId nd [] hstep hnd
    refine ⟨path, ?_, hne', hhead, hlast, ?_⟩
    · unfold getPathToRoot
      rw [hwalk]
      simp
    · unfold buildChatHistory getPathToRoot
      rw [hwalk]
      simp only [List.append_nil]
      exact buildChatHistoryAux_of_keys nodes path hmem
  · rfl

/-- Witness for C5 on the imported two-node chain of the spec's example. -/
theorem C5_history_witness :
    treeInvariant (nodeId 0) (chainUpTo [("x", "y"), ("a", "b")] 2) ∧
    (∀ x ∈ keysA (chainUpTo [("x", "y"), ("a", "b")] 2), x ≠ "") ∧
    lookupA (chainUpTo [("x", "y"), ("a", "b")] 2) (nodeId 1) =
      some (chainEntry [("x", "y"), ("a", "b")] 2 1) ∧
    ((∃ path, getPathToRoot (nodeId 1) (chainUpTo [("x", "y"), ("a", "b")] 2) = some path ∧
      path ≠ [] ∧ path.head? = some (nodeId 0) ∧ path.getLast? = some (nodeId 1) ∧
      buildChatHistory (nodeId 1) (chainUpTo [("x", "y"), ("a", "b")] 2) =
        some (pathMessages (chainUpTo [("x", "y"), ("a", "b")] 2) path)) ∧
    buildChatHistory "node-1"
      [("node-0", ⟨"node-0", "x", "y", none, ["node-1"], NodeSource.imported⟩),
       ("node-1", ⟨"node-1", "a", "b", some "node-0", [], NodeSource.imported⟩)] =
      some [⟨ChatRole.user, "x"⟩, ⟨ChatRole.assistant, "y"⟩,
            ⟨ChatRole.user, "a"⟩, ⟨ChatRole.assistant, "b"⟩]) :=
  ⟨chain_invariant [("x", "y"), ("a", "b")] 2 (by omega),
   by decide,
   rfl,
   C5_buildChatHistory_path (nodeId 0) (nodeId 1)
     (chainUpTo [("x", "y"), ("a", "b")] 2) (chainEntry [("x", "y"), ("a", "b")] 2 1)
     (chain_invariant [("x", "y"), ("a", "b")] 2 (by omega))
     (by decide) rfl⟩

/-!
### Properties of the layout engine
-/

/-- Root id of a rose tree. -/
def LTree.rootId : LTree → String
  | LTree.mk i _ => i

/-- Children of a rose tree. -/
def LTree.kids : LTree → List LTree
  | LTree.mk _ cs => cs

theorem LTree_rec_aux (P : LTree → Prop) (Q : List LTree → Prop)
    (hnil : Q [])
    (hcons : ∀ t ts, P t → Q ts → Q (t :: ts))
    (hmk : ∀ i cs, Q cs → P (LTree.mk i cs)) :
    ∀ n : Nat, (∀ t : LTree, sizeOf t ≤ n → P t) ∧
      (∀ ts : List LTree, sizeOf ts ≤ n → Q ts) := by
  intro n
  induction n with
  | zero =>
      constructor
      · intro t h
        cases t with
        | mk i cs => simp at h
      · intro ts h
        cases ts with
        | nil => exact hnil
        | cons t ts' => simp at h
  | succ n ih =>
      constructor
      · intro t h
        cases t with
        | mk i cs =>
            apply hmk
            apply ih.2
            simp at h
            omega
      · intro ts h
        cases ts with
        | nil => exact hnil
        | cons t ts' =>
            simp at h
            exact hcons t ts' (ih.1 t (by omega)) (ih.2 ts' (by omega))

/-- Mutual structural induction for rose trees and their child lists. -/
theorem LTree_mutual_induction (P : LTree → Prop) (Q : List LTree → Prop)
    (hnil : Q [])
    (hcons : ∀ t ts, P t → Q ts → Q (t :: ts))
    (hmk : ∀ i cs, Q cs → P (LTree.mk i cs)) :
    (∀ t, P t) ∧ (∀ ts, Q ts) :=
  ⟨fun t => (LTree_rec_aux P Q hnil hcons hmk (sizeOf t)).1 t le_rfl,
   fun ts => (LTree_rec_aux P Q hnil hcons hmk (sizeOf ts)).2 ts le_rfl⟩

theorem tLeaves_facts :
    (∀ t : LTree, 1 ≤ tLeaves t ∧ (tLeafList t).length = tLeaves t ∧
      (∀ x ∈ tLeafList t, x ∈ tIds t)) ∧
    (∀ ts : List LTree, (ts ≠ [] → 1 ≤ tLeavesL ts) ∧
      (tLeafListL ts).length = tLeavesL ts ∧
      (∀ x ∈ tLeafListL ts, x ∈ tIdsL ts)) := by
  apply LTree_mutual_induction
  · exact ⟨fun h => absurd rfl h, rfl, by simp [tLeafListL, tIdsL]⟩
  · intro t ts ht hts
    refine ⟨?_, ?_, ?_⟩
    · intro h
      rw [tLeavesL]
      have h1 := ht.1
      omega
    · rw [tLeafListL, tLeavesL]
      simp [ht.2.1, hts.2.1]
    · intro x hx
      rw [tLeafListL] at hx
      rw [tIdsL]
      rcases List.mem_append.mp hx with hx | hx
      · exact List.mem_append.mpr (Or.inl (ht.2.2 x hx))
      · exact List.mem_append.mpr (Or.inr (hts.2.2 x hx))
  · intro i cs hcs
    cases cs with
    | nil =>
        refine ⟨le_rfl, rfl, ?_⟩
        intro x hx
        rw [tLeafList] at hx
        rw [tIds]
        simp at hx
        simp [hx, tIdsL]
    | cons k ks =>
        refine ⟨?_, ?_, ?_⟩
        · rw [tLeaves]
          exact hcs.1 (by simp)
        · rw [tLeaves, tLeafList]
          exact hcs.2.1
        · intro x hx
          rw [tLeafList] at hx
          rw [tIds]
          exact List.mem_append.mpr (Or.inl (hcs.2.2 x hx))

theorem tLeaves_pos (t : LTree) : 1 ≤ tLeaves t := (tLeaves_facts.1 t).1

theorem tLeafList_length (t : LTree) : (tLeafList t).length = tLeaves t :=
  (tLeaves_facts.1 t).2.1

theorem tLeafListL_length (ts : List LTree) : (tLeafListL ts).length = tLeavesL ts :=
  (tLeaves_facts.2 ts).2.1

theorem tLeafList_subset {t : LTree} {x : String} (h : x ∈ tLeafList t) : x ∈ tIds t :=
  (tLeaves_facts.1 t).2.2 x h

theorem tLeafListL_subset {ts : List LTree} {x : String} (h : x ∈ tLeafListL ts) :
    x ∈ tIdsL ts :=
  (tLeaves_facts.2 ts).2.2 x h

theorem tAssigns_keys_facts (W H hG vG : ℚ) :
    (∀ t : LTree, ∀ d c : Nat, keysA (tAssigns W H hG vG t d c) = tIds t) ∧
    (∀ ts : List LTree, ∀ d c : Nat, keysA (tAssignsL W H hG vG ts d c) = tIdsL ts) := by
  apply LTree_mutual_induction
  · intro d c
    rfl
  · intro t ts ht hts d c
    rw [tAssignsL, tIdsL, keysA_append, ht d c, hts d (c + tLeaves t)]
  · intro i cs hcs
    cases cs with
    | nil =>
        intro d c
        rw [tAssigns, tIds]
        simp [keysA, tIdsL]
    | cons k ks =>
        intro d c
        rw [tAssigns, tIds, keysA_append, hcs (d + 1) c]
        simp [keysA]

theorem tAssigns_keys (W H hG vG : ℚ) (t : LTree) (d c : Nat) :
    keysA (tAssigns W H hG vG t d c) = tIds t :=
  (tAssigns_keys_facts W H hG vG).1 t d c

theorem tAssignsL_keys (W H hG vG : ℚ) (ts : List LTree) (d c : Nat) :
    keysA (tAssignsL W H hG vG ts d c) = tIdsL ts :=
  (tAssigns_keys_facts W H hG vG).2 ts d c

theorem tDepths_fst_mem_facts :
    (∀ t : LTree, ∀ d id dd, (id, dd) ∈ tDepths t d → id ∈ tIds t) ∧
    (∀ ts : List LTree, ∀ d id dd, (id, dd) ∈ tDepthsL ts d → id ∈ tIdsL ts) := by
  apply LTree_mutual_induction
  · intro d id dd h
    rw [tDepthsL] at h
    simp at h
  · intro t ts ht hts d id dd h
    rw [tDepthsL] at h
    rw [tIdsL]
    rcases List.mem_append.mp h with h | h
    · exact List.mem_append.mpr (Or.inl (ht d id dd h))
    · exact List.mem_append.mpr (Or.inr (hts d id dd h))
  · intro i cs hcs d id dd h
    rw [tDepths] at h
    rw [tIds]
    rcases List.mem_cons.mp h with h | h
    · injection h with h1 h2
      simp [h1]
    · exact List.mem_append.mpr (Or.inl (hcs (d + 1) id dd h))

theorem lookupA_append_left_mem {α : Type} {m₁ : List (String × α)} {key : String}
    (h : key ∈ keysA m₁) (m₂ : List (String × α)) :
    lookupA (m₁ ++ m₂) key = lookupA m₁ key := by
  obtain ⟨v, hv⟩ := Option.isSome_iff_exists.mp ((lookupA_isSome_iff m₁ key).mpr h)
  rw [lookupA_append_left hv, hv]

theorem tAssigns_depth_facts (W H hG vG : ℚ) :
    (∀ t : LTree, ∀ d c id dd, (tIds t).Nodup → (id, dd) ∈ tDepths t d →
      ∃ x, lookupA (tAssigns W H hG vG t d c) id = some ⟨x, (dd : ℚ) * (H + vG)⟩) ∧
    (∀ ts : List LTree, ∀ d c id dd, (tIdsL ts).Nodup → (id, dd) ∈ tDepthsL ts d →
      ∃ x, lookupA (tAssignsL W H hG vG ts d c) id = some ⟨x, (dd : ℚ) * (H + vG)⟩) := by
  apply LTree_mutual_induction
  · intro d c id dd hdup h
    rw [tDepthsL] at h
    simp at h
  · intro t ts ht hts d c id dd hdup h
    rw [tIdsL, List.nodup_append] at hdup
    rw [tDepthsL] at h
    rw [tAssignsL]
    rcases List.mem_append.mp h with h | h
    · obtain ⟨x, hx⟩ := ht d c id dd hdup.1 h
      exact ⟨x, lookupA_append_left hx _⟩
    · have hmem : id ∈ tIdsL ts := tDepths_fst_mem_facts.2 ts d id dd h
      have hnone : lookupA (tAssigns W H hG vG t d c) id = none := by
        rw [lookupA_eq_none_iff, tAssigns_keys]
        exact fun hc => hdup.2.2 hc hmem
      obtain ⟨x, hx⟩ := hts d (c + tLeaves t) id dd hdup.2.1 h
      exact ⟨x, by rw [lookupA_append_right hnone, hx]⟩
  · intro i cs hcs d c id dd hdup h
    rw [tDepths] at h
    rw [tIds, List.nodup_append] at hdup
    rcases List.mem_cons.mp h with h | h
    · injection h with h1 h2
      rw [h1, h2]
      cases cs with
      | nil =>
          rw [tAssigns]
          exact ⟨(c : ℚ) * (W + hG), by simp [lookupA]⟩
      | cons k ks =>
          rw [tAssigns]
          have hni : i ∉ tIdsL (k :: ks) := fun hc =>
            hdup.2.2 hc (List.mem_singleton.mpr rfl)
          have hnone : lookupA (tAssignsL W H hG vG (k :: ks) (d + 1) c) i = none := by
            rw [lookupA_eq_none_iff, tAssignsL_keys]
            exact hni
          rw [lookupA_append_right hnone]
          exact ⟨((c : ℚ) * (W + hG) +
            ((c : ℚ) + (tLeavesL (k :: ks) : ℚ) - 1) * (W + hG)) / 2, by simp [lookupA]⟩
    · cases cs with
      | nil =>
          rw [tDepthsL] at h
          simp at h
      | cons k ks =>
          obtain ⟨x, hx⟩ := hcs (d + 1) c id dd hdup.1 h
          rw [tAssigns]
          exact ⟨x, lookupA_append_left hx _⟩

theorem tAssigns_leaf_facts (W H hG vG : ℚ) :
    (∀ t : LTree, ∀ d c k f, (tIds t).Nodup → (tLeafList t)[k]? = some f →
      ∃ y, lookupA (tAssigns W H hG vG t d c) f =
        some ⟨((c + k : Nat) : ℚ) * (W + hG), y⟩) ∧
    (∀ ts : List LTree, ∀ d c k f, (tIdsL ts).Nodup → (tLeafListL ts)[k]? = some f →
      ∃ y, lookupA (tAssignsL W H hG vG ts d c) f =
        some ⟨((c + k : Nat) : ℚ) * (W + hG), y⟩) := by
  apply LTree_mutual_induction
  · intro d c k f hdup h
    rw [tLeafListL] at h
    simp at h
  · intro t ts ht hts d c k f hdup h
    rw [tIdsL, List.nodup_append] at hdup
    rw [tLeafListL] at h
    rw [tAssignsL]
    rw [List.getElem?_append] at h
    by_cases hk : k < (tLeafList t).length
    · rw [if_pos hk] at h
      obtain ⟨y, hy⟩ := ht d c k f hdup.1 h
      exact ⟨y, lookupA_append_left hy _⟩
    · rw [if_neg hk] at h
      obtain ⟨y, hy⟩ := hts d (c + tLeaves t) (k - (tLeafList t).length) f hdup.2.1 h
      have hf : f ∈ tIdsL ts := by
        have hmem := List.getElem?_mem h
        exact tLeafListL_subset hmem
      have hnone : lookupA (tAssigns W H hG vG t d c) f = none := by
        rw [lookupA_eq_none_iff, tAssigns_keys]
        exact fun hc => hdup.2.2 hc hf
      have harith : c + tLeaves t + (k - (tLeafList t).length) = c + k := by
        have hlen := tLeafList_length t
        omega
      rw [harith] at hy
      exact ⟨y, by rw [lookupA_append_right hnone, hy]⟩
  · intro i cs hcs d c k f hdup h
    rw [tIds, List.nodup_append] at hdup
    cases cs with
    | nil =>
        rw [tLeafList] at h
        cases k with
        | zero =>
            simp at h
            subst h
            rw [tAssigns]
            exact ⟨(d : ℚ) * (H + vG), by simp [lookupA]⟩
        | succ k' => simp at h
    | cons k' ks =>
        rw [tLeafList] at h
        obtain ⟨y, hy⟩ := hcs (d + 1) c k f hdup.1 h
        rw [tAssigns]
        exact ⟨y, lookupA_append_left hy _⟩

theorem tAssigns_subtree_facts (W H hG vG : ℚ) :
    (∀ t : LTree, ∀ d c s, (tIds t).Nodup → s ∈ tSubs t →
      ∀ M : PosMap, (∀ x ∈ tIds t, lookupA M x = lookupA (tAssigns W H hG vG t d c) x) →
      s.kids ≠ [] →
      ∃ f l pf pl ps,
        (tLeafList s)[0]? = some f ∧
        (tLeafList s)[tLeaves s - 1]? = some l ∧
        lookupA M f = some pf ∧ lookupA M l = some pl ∧
        lookupA M s.rootId = some ps ∧
        ps.x = (pf.x + pl.x) / 2) ∧
    (∀ ts : List LTree, ∀ d c s, (tIdsL ts).Nodup → s ∈ tSubsL ts →
      ∀ M : PosMap, (∀ x ∈ tIdsL ts, lookupA M x = lookupA (tAssignsL W H hG vG ts d c) x) →
      s.kids ≠ [] →
      ∃ f l pf pl ps,
        (tLeafList s)[0]? = some f ∧
        (tLeafList s)[tLeaves s - 1]? = some l ∧
        lookupA M f = some pf ∧ lookupA M l = some pl ∧
        lookupA M s.rootId = some ps ∧
        ps.x = (pf.x + pl.x) / 2) := by
  apply LTree_mutual_induction
  · intro d c s hdup hs M hM hk
    rw [tSubsL] at hs
    simp at hs
  · intro t ts ht hts d c s hdup hs M hM hk
    rw [tIdsL, List.nodup_append] at hdup
    rw [tSubsL] at hs
    rcases List.mem_append.mp hs with hs | hs
    · refine ht d c s hdup.1 hs M ?_ hk
      intro x hx
      rw [hM x (by rw [tIdsL]; exact List.mem_append.mpr (Or.inl hx)), tAssignsL,
        lookupA_append_left_mem (by rw [tAssigns_keys]; exact hx)]
    · refine hts d (c + tLeaves t) s hdup.2.1 hs M ?_ hk
      intro x hx
      have hnone : lookupA (tAssigns W H hG vG t d c) x = none := by
        rw [lookupA_eq_none_iff, tAssigns_keys]
        exact fun hc => hdup.2.2 hc hx
      rw [hM x (by rw [tIdsL]; exact List.mem_append.mpr (Or.inr hx)), tAssignsL,
        lookupA_append_right hnone]
  · intro i cs hcs d c s hdup hs M hM hk
    rw [tIds, List.nodup_append] at hdup
    rw [tSubs] at hs
    rcases List.mem_cons.mp hs with hs | hs
    · subst hs
      cases cs with
      | nil => exact absurd rfl hk
      | cons k ks =>
          set LL := tLeavesL (k :: ks) with hLL
          have hpos : 1 ≤ LL := (tLeaves_facts.2 (k :: ks)).1 (by simp)
          have hlen : (tLeafListL (k :: ks)).length = LL := tLeafListL_length (k :: ks)
          have h0 : 0 < (tLeafListL (k :: ks)).length := by omega
          have h1 : LL - 1 < (tLeafListL (k :: ks)).length := by omega
          have hf0 : (tLeafListL (k :: ks))[0]? = some ((tLeafListL (k :: ks))[0]) :=
            List.getElem?_eq_getElem h0
          have hl0 : (tLeafListL (k :: ks))[LL - 1]? =
              some ((tLeafListL (k :: ks))[LL - 1]) :=
            List.getElem?_eq_getElem h1
          obtain ⟨yf, hyf⟩ := (tAssigns_leaf_facts W H hG vG).2 (k :: ks) (d + 1) c 0
            ((tLeafListL (k :: ks))[0]) hdup.1 hf0
          obtain ⟨yl, hyl⟩ := (tAssigns_leaf_facts W H hG vG).2 (k :: ks) (d + 1) c (LL - 1)
            ((tLeafListL (k :: ks))[LL - 1]) hdup.1 hl0
          have hfmem : (tLeafListL (k :: ks))[0] ∈ tIds (LTree.mk i (k :: ks)) := by
            rw [tIds]
            exact List.mem_append.mpr (Or.inl
              (tLeafListL_subset (List.getElem?_mem hf0)))
          have hlmem : (tLeafListL (k :: ks))[LL - 1] ∈ tIds (LTree.mk i (k :: ks)) := by
            rw [tIds]
            exact List.mem_append.mpr (Or.inl
              (tLeafListL_subset (List.getElem?_mem hl0)))
          have himem : i ∈ tIds (LTree.mk i (k :: ks)) := by
            rw [tIds]
            exact List.mem_append.mpr (Or.inr (List.mem_singleton.mpr rfl))
          have hnoneI : lookupA (tAssignsL W H hG vG (k :: ks) (d + 1) c) i = none := by
            rw [lookupA_eq_none_iff, tAssignsL_keys]
            exact fun hc => hdup.2.2 hc (List.mem_singleton.mpr rfl)
          have hps : lookupA M i =
              some ⟨((c : ℚ) * (W + hG) + ((c : ℚ) + (LL : ℚ) - 1) * (W + hG)) / 2,
                    (d : ℚ) * (H + vG)⟩ := by
            rw [hM i himem, tAssigns, lookupA_append_right hnoneI]
            simp [lookupA]
          refine ⟨(tLeafListL (k :: ks))[0], (tLeafListL (k :: ks))[LL - 1],
            ⟨((c + 0 : Nat) : ℚ) * (W + hG), yf⟩,
            ⟨((c + (LL - 1) : Nat) : ℚ) * (W + hG), yl⟩,
            ⟨((c : ℚ) * (W + hG) + ((c : ℚ) + (LL : ℚ) - 1) * (W + hG)) / 2,
             (d : ℚ) * (H + vG)⟩, ?_, ?_, ?_, ?_, ?_, ?_⟩
          · rw [tLeafList]
            exact hf0
          · rw [tLeafList, tLeaves]
            exact hl0
          · rw [hM _ hfmem, tAssigns]
            exact lookupA_append_left hyf _
          · rw [hM _ hlmem, tAssigns]
            exact lookupA_append_left hyl _
          · rw [LTree.rootId]
            exact hps
          · have hcast : ((c + (LL - 1) : Nat) : ℚ) = (c : ℚ) + (LL : ℚ) - 1 := by
              push_cast [Nat.cast_sub hpos]
              ring
            simp only [Nat.add_zero, hcast]
    · cases cs with
      | nil =>
          rw [tSubsL] at hs
          simp at hs
      | cons k ks =>
          refine hcs (d + 1) c s hdup.1 hs M ?_ hk
          intro x hx
          rw [hM x (by rw [tIds]; exact List.mem_append.mpr (Or.inl hx)), tAssigns,
            lookupA_append_left_mem (by rw [tAssignsL_keys]; exact hx)]

theorem listExtend_some (W hG : ℚ) (hW : 0 ≤ W + hG) :
    ∀ (ts : List LTree) (c : Nat) (gn gx : ℚ), ts ≠ [] →
      listExtend W hG (some (gn, gx)) ts c =
        some (min gn ((c : ℚ) * (W + hG)),
              max gx (((c : ℚ) + (tLeavesL ts : ℚ) - 1) * (W + hG))) := by
  intro ts
  induction ts with
  | nil => intro c gn gx h; exact absurd rfl h
  | cons t ts ih =>
      intro c gn gx h
      simp only [listExtend]
      by_cases hts : ts = []
      · subst hts
        simp only [listExtend, tLeavesL, Nat.add_zero]
      · rw [ih (c + tLeaves t) _ _ hts, tLeavesL]
        have ha : (0 : ℚ) ≤ (tLeaves t : ℚ) := Nat.cast_nonneg _
        have hb : (0 : ℚ) ≤ (tLeavesL ts : ℚ) := Nat.cast_nonneg _
        push_cast
        simp only [Option.some.injEq, Prod.mk.injEq]
        constructor
        · rw [min_assoc, min_eq_left (mul_le_mul_of_nonneg_right (by linarith) hW)]
        · rw [max_assoc, max_eq_right (mul_le_mul_of_nonneg_right (by linarith) hW)]
          congr 1
          ring

theorem listExtend_none (W hG : ℚ) (hW : 0 ≤ W + hG) :
    ∀ (ts : List LTree) (c : Nat), ts ≠ [] →
      listExtend W hG none ts c =
        some ((c : ℚ) * (W + hG),
              ((c : ℚ) + (tLeavesL ts : ℚ) - 1) * (W + hG)) := by
  intro ts c h
  cases ts with
  | nil => exact absurd rfl h
  | cons t ts' =>
      simp only [listExtend]
      by_cases hts : ts' = []
      · subst hts
        simp only [listExtend, tLeavesL, Nat.add_zero]
      · rw [listExtend_some W hG hW ts' (c + tLeaves t) _ _ hts, tLeavesL]
        have ha : (0 : ℚ) ≤ (tLeaves t : ℚ) := Nat.cast_nonneg _
        have hb : (0 : ℚ) ≤ (tLeavesL ts' : ℚ) := Nat.cast_nonneg _
        have h1 : (1 : ℚ) ≤ (tLeaves t : ℚ) := by
          exact_mod_cast tLeaves_pos t
        push_cast
        simp only [Option.some.injEq, Prod.mk.injEq]
        constructor
        · rw [min_eq_left (mul_le_mul_of_nonneg_right (by linarith) hW)]
        · rw [max_eq_right (mul_le_mul_of_nonneg_right (by linarith) hW)]
          congr 1
          ring

/-- Sequencing an optional list preserves the length. -/
theorem optList_length {α : Type} :
    ∀ {xs : List (Option α)} {ys : List α}, optList xs = some ys → ys.length = xs.length := by
  intro xs
  induction xs with
  | nil => intro ys h; rw [optList, Option.some.injEq] at h; subst h; rfl
  | cons x xs ih =>
      intro ys h
      cases x with
      | none => rw [optList] at h; exact absurd h (by simp)
      | some a =>
          rw [optList, Option.map_eq_some'] at h
          obtain ⟨l, hl, hy⟩ := h
          subst hy
          simp [ih hl]

/-- The `for` loop over a node's children realizes `listExtend` on the
extents and appends exactly the `tAssignsL` block to the positions,
advancing the leaf counter by the leaf count, provided the recursive call
at the loop's fuel already satisfies the node-level specification. -/
theorem layoutKids_bridge (nodes : NodeMap) (W H hG vG : ℚ) (fuel d : Nat)
    (hf : ∀ (id : String) (t : LTree) (st : LayoutState),
      extract nodes fuel id = some t → (tIds t).Nodup →
      (∀ x ∈ tIds t, lookupA st.positions x = none) →
      layoutNode nodes W H hG vG fuel id d st =
        some (((st.leafCounter : ℚ) * (W + hG),
               ((st.leafCounter : ℚ) + (tLeaves t : ℚ) - 1) * (W + hG)),
          ⟨st.leafCounter + tLeaves t,
           st.positions ++ tAssigns W H hG vG t d st.leafCounter⟩)) :
    ∀ (ids : List String) (ts : List LTree) (acc : Option (ℚ × ℚ)) (st : LayoutState),
      optList (ids.map (extract nodes fuel)) = some ts →
      (tIdsL ts).Nodup →
      (∀ x ∈ tIdsL ts, lookupA st.positions x = none) →
      layoutKids (fun c st' => layoutNode nodes W H hG vG fuel c d st') ids acc st =
        some (listExtend W hG acc ts st.leafCounter,
          ⟨st.leafCounter + tLeavesL ts,
           st.positions ++ tAssignsL W H hG vG ts d st.leafCounter⟩) := by
  intro ids
  induction ids with
  | nil =>
      intro ts acc st hopt hdup hfresh
      rw [List.map_nil, optList, Option.some.injEq] at hopt
      subst hopt
      simp only [layoutKids, listExtend, tLeavesL, tAssignsL, Nat.add_zero, List.append_nil]
  | cons id ids ih =>
      intro ts acc st hopt hdup hfresh
      rw [List.map_cons] at hopt
      cases hex : extract nodes fuel id with
      | none => rw [hex, optList] at hopt; exact absurd hopt (by simp)
      | some t =>
          rw [hex, optList, Option.map_eq_some'] at hopt
          obtain ⟨ts', hts', hts⟩ := hopt
          subst hts
          rw [tIdsL, List.nodup_append] at hdup
          have hfresh_t : ∀ x ∈ tIds t, lookupA st.positions x = none := by
            intro x hx
            exact hfresh x (by rw [tIdsL]; exact List.mem_append.mpr (Or.inl hx))
          have hnode := hf id t st hex hdup.1 hfresh_t
          simp only [layoutKids, hnode]
          have hfresh' : ∀ x ∈ tIdsL ts',
              lookupA (st.positions ++ tAssigns W H hG vG t d st.leafCounter) x = none := by
            intro x hx
            rw [lookupA_eq_none_iff, keysA_append, List.mem_append, tAssigns_keys]
            push_neg
            refine ⟨?_, fun hc => hdup.2.2 hc hx⟩
            intro hc
            have := hfresh x (by rw [tIdsL]; exact List.mem_append.mpr (Or.inr hx))
            rw [lookupA_eq_none_iff] at this
            exact this hc
          rw [ih ts' _ ⟨st.leafCounter + tLeaves t,
              st.positions ++ tAssigns W H hG vG t d st.leafCounter⟩ hts' hdup.2.1 hfresh']
          simp only [listExtend, tLeavesL, tAssignsL, Nat.add_assoc, List.append_assoc]

/-- The recursive `layoutNode` on a successfully extracted (duplicate-free,
position-fresh) subtree never fails, returns the extents
`[c·(W+hG), (c+leaves−1)·(W+hG)]` for starting leaf counter `c`, advances
the counter by the leaf count, and appends exactly the `tAssigns`
assignment block to the positions map. -/
theorem layoutNode_bridge (nodes : NodeMap) (W H hG vG : ℚ) (hW : 0 ≤ W + hG) :
    ∀ (fuel : Nat) (id : String) (t : LTree) (d : Nat) (st : LayoutState),
      extract nodes fuel id = some t →
      (tIds t).Nodup →
      (∀ x ∈ tIds t, lookupA st.positions x = none) →
      layoutNode nodes W H hG vG fuel id d st =
        some (((st.leafCounter : ℚ) * (W + hG),
               ((st.leafCounter : ℚ) + (tLeaves t : ℚ) - 1) * (W + hG)),
          ⟨st.leafCounter + tLeaves t,
           st.positions ++ tAssigns W H hG vG t d st.leafCounter⟩) := by
  intro fuel
  induction fuel with
  | zero => intro id t d st hex hdup hfresh; rw [extract] at hex; exact absurd hex (by simp)
  | succ fuel ihf =>
      intro id t d st hex hdup hfresh
      cases hnd : lookupA nodes id with
      | none => rw [extract, hnd] at hex; exact absurd hex (by simp)
      | some nd =>
          rw [extract, hnd, Option.map_eq_some'] at hex
          obtain ⟨ts, hts, ht⟩ := hex
          subst ht
          rw [tIds, List.nodup_append] at hdup
          simp only [layoutNode, hnd]
          by_cases hcs : nd.childIds = []
          · rw [hcs, List.map_nil, optList, Option.some.injEq] at hts
            subst hts
            rw [if_pos hcs]
            have hidfresh : id ∉ keysA st.positions := by
              have := hfresh id (by rw [tIds, tIdsL]; simp)
              rw [lookupA_eq_none_iff] at this
              exact this
            rw [tLeaves, tAssigns, setEntry_of_not_mem hidfresh]
            simp only [Option.some.injEq, Prod.mk.injEq, LayoutState.mk.injEq]
            push_cast
            ring_nf
            trivial
          · rw [if_neg hcs]
            have hlen := optList_length hts
            have hts_ne : ts ≠ [] := by
              intro h
              subst h
              cases hc : nd.childIds with
              | nil => exact hcs hc
              | cons a l => rw [hc] at hlen; simp at hlen
            obtain ⟨t₁, ts₁, rfl⟩ : ∃ a l, ts = a :: l := by
              cases ts with
              | nil => exact absurd rfl hts_ne
              | cons a l => exact ⟨a, l, rfl⟩
            have hfresh_ts : ∀ x ∈ tIdsL (t₁ :: ts₁), lookupA st.positions x = none := by
              intro x hx
              exact hfresh x (by rw [tIds]; exact List.mem_append.mpr (Or.inl hx))
            have hkids := layoutKids_bridge nodes W H hG vG fuel (d + 1)
              (fun id' t' st' hx hd hf' => ihf id' t' (d + 1) st' hx hd hf')
              nd.childIds (t₁ :: ts₁) none st hts hdup.1 hfresh_ts
            rw [listExtend_none W hG hW (t₁ :: ts₁) st.leafCounter (by simp)] at hkids
            rw [hkids]
            have hnotmem : id ∉ keysA (st.positions ++
                tAssignsL W H hG vG (t₁ :: ts₁) (d + 1) st.leafCounter) := by
              rw [keysA_append, List.mem_append, tAssignsL_keys]
              push_neg
              constructor
              · have := hfresh id (by rw [tIds]; simp)
                rw [lookupA_eq_none_iff] at this
                exact this
              · intro hc
                exact hdup.2.2 hc (by simp)
            rw [tLeaves, tAssigns]
            simp only [Option.some.injEq, Prod.mk.injEq, LayoutState.mk.injEq]
            rw [setEntry_of_not_mem hnotmem, List.append_assoc]
            exact ⟨trivial, trivial, rfl⟩

/-- **C4.** For every well-formed tree (the child graph below the root
extracts to a finite tree within the `nodes.length + 1` fuel of the source
recursion, with no duplicate ids), `computeTreeLayout` is deterministic,
succeeds, assigns exactly one position to every node reachable from the
root (its keys are exactly the tree's ids, each once); every node laid out
at depth `dd` gets y-coordinate `dd * (nodeHeight + vGap)` with the root
at depth 0; the `k`-th leaf in depth-first `childIds` order gets
x-coordinate `k * (nodeWidth + hGap)` from `k = 0`; and every node with
children gets x-coordinate equal to the midpoint of the minimum and maximum
x-extents of its children's subtrees (the positions of its first and last
descendant leaves). -/
theorem C4_layout_properties (nodes : NodeMap) (W H hG vG : ℚ) (rootId : String)
    (t : LTree) (hW : 0 ≤ W + hG)
    (hx : extract nodes (nodes.length + 1) rootId = some t)
    (hdup : (tIds t).Nodup) :
    ∃ pos : PosMap,
      computeTreeLayout rootId nodes W H hG vG = some pos ∧
      computeTreeLayout rootId nodes W H hG vG = computeTreeLayout rootId nodes W H hG vG ∧
      keysA pos = tIds t ∧
      (keysA pos).Nodup ∧
      (∀ id dd, (id, dd) ∈ tDepths t 0 →
        ∃ x, lookupA pos id = some ⟨x, (dd : ℚ) * (H + vG)⟩) ∧
      (∀ (k : Nat) (f : String), (tLeafList t)[k]? = some f →
        ∃ y, lookupA pos f = some ⟨(k : ℚ) * (W + hG), y⟩) ∧
      (∀ s ∈ tSubs t, s.kids ≠ [] →
        ∃ f l pf pl ps,
          (tLeafList s)[0]? = some f ∧
          (tLeafList s)[tLeaves s - 1]? = some l ∧
          lookupA pos f = some pf ∧ lookupA pos l = some pl ∧
          lookupA pos s.rootId = some ps ∧
          ps.x = (pf.x + pl.x) / 2) := by
  have hbr := layoutNode_bridge nodes W H hG vG hW (nodes.length + 1) rootId t 0 ⟨0, []⟩
    hx hdup (fun x hx' => rfl)
  refine ⟨tAssigns W H hG vG t 0 0, ?_, rfl, tAssigns_keys W H hG vG t 0 0, ?_, ?_, ?_, ?_⟩
  · rw [computeTreeLayout, hbr]
    rfl
  · rw [tAssigns_keys]
    exact hdup
  · intro id dd h
    exact (tAssigns_depth_facts W H hG vG).1 t 0 0 id dd hdup h
  · intro k f h
    obtain ⟨y, hy⟩ := (tAssigns_leaf_facts W H hG vG).1 t 0 0 k f hdup h
    rw [Nat.zero_add] at hy
    exact ⟨y, hy⟩
  · intro s hs hk
    exact (tAssigns_subtree_facts W H hG vG).1 t 0 0 s hdup hs
      (tAssigns W H hG vG t 0 0) (fun x hx' => rfl) hk

/-- A three-node mapping (root `r` with leaf children `a`, `b`) used to
instantiate the layout theorem on the source's default dimensions. -/
def layoutDemo : NodeMap :=
  [("r", ⟨"r", "p", "q", none, ["a", "b"], NodeSource.generated⟩),
   ("a", ⟨"a", "p", "q", some "r", [], NodeSource.generated⟩),
   ("b", ⟨"b", "p", "q", some "r", [], NodeSource.generated⟩)]

/-- Closed instance of the layout theorem on `layoutDemo` with the source's
default dimensions 240/120/40/60. -/
theorem C4_layout_witness :
    ∃ pos : PosMap,
      computeTreeLayout "r" layoutDemo 240 120 40 60 = some pos ∧
      computeTreeLayout "r" layoutDemo 240 120 40 60 =
        computeTreeLayout "r" layoutDemo 240 120 40 60 ∧
      keysA pos = tIds (LTree.mk "r" [LTree.mk "a" [], LTree.mk "b" []]) ∧
      (keysA pos).Nodup ∧
      (∀ id dd, (id, dd) ∈ tDepths (LTree.mk "r" [LTree.mk "a" [], LTree.mk "b" []]) 0 →
        ∃ x, lookupA pos id = some ⟨x, (dd : ℚ) * (120 + 60)⟩) ∧
      (∀ (k : Nat) (f : String),
          (tLeafList (LTree.mk "r" [LTree.mk "a" [], LTree.mk "b" []]))[k]? = some f →
        ∃ y, lookupA pos f = some ⟨(k : ℚ) * (240 + 40), y⟩) ∧
      (∀ s ∈ tSubs (LTree.mk "r" [LTree.mk "a" [], LTree.mk "b" []]), s.kids ≠ [] →
        ∃ f l pf pl ps,
          (tLeafList s)[0]? = some f ∧
          (tLeafList s)[tLeaves s - 1]? = some l ∧
          lookupA pos f = some pf ∧ lookupA pos l = some pl ∧
          lookupA pos s.rootId = some ps ∧
          ps.x = (pf.x + pl.x) / 2) :=
  C4_layout_properties layoutDemo 240 120 40 60 "r"
    (LTree.mk "r" [LTree.mk "a" [], LTree.mk "b" []])
    (by norm_num) rfl (by decide)

end BranchingChat
